import Mathlib

/- Verification of the deno_watchman repository: the BSER binary codec
   (src/bser/mod.ts) and the watchman command client (src/client.ts).

   Modelling conventions:
   * Byte buffers are `List Nat`, each entry a byte (< 256); reads reduce
     entries mod 256, mirroring the fact that a JS `Buffer` physically stores
     octets.
   * The host is modelled as little endian (`os.endianness() = "LE"`), which is
     the endianness the specification's canonical byte sequences assume.
   * JavaScript numbers holding integral values are modelled as `Int`; numbers
     with a fractional part (the `REAL` case) are carried as their IEEE-754
     bit pattern (a `Nat < 2^64`), since the codec moves the 8 raw bytes of
     the double unchanged in host order.
   * JS strings are modelled as their UTF-8 byte sequences. -/

/-- Little-endian base-256 digits of `m`, `size` bytes (the byte image that
`Buffer.writeIntLE`-style writers produce for a nonnegative value). -/
def natLE : Nat → Nat → List Nat
  | _, 0 => []
  | m, size + 1 => (m % 256) :: natLE (m / 256) size

/-- Value of a little-endian byte sequence. -/
def natOfLE : List Nat → Nat
  | [] => 0
  | b :: bs => b + 256 * natOfLE bs

/-- Two's-complement reading of a `size`-byte unsigned value, as done by
`Buffer.readIntLE`-style signed readers. -/
def asSigned (size m : Nat) : Int :=
  if 2 * m < 256 ^ size then (m : Int) else (m : Int) - ((256 ^ size : Nat) : Int)

/-- The `size`-byte little-endian two's-complement image of `v`, as written by
`Accumulator.writeInt` on a little-endian host. -/
def intLE (v : Int) (size : Nat) : List Nat :=
  natLE (v % ((256 ^ size : Nat) : Int)).toNat size

theorem length_natLE (m size : Nat) : (natLE m size).length = size := by
  induction size generalizing m with
  | zero => rfl
  | succ n ih => simp [natLE, ih]

theorem natLE_all_lt (m size : Nat) : ∀ b ∈ natLE m size, b < 256 := by
  induction size generalizing m with
  | zero => simp [natLE]
  | succ n ih =>
    intro b hb
    simp only [natLE, List.mem_cons] at hb
    rcases hb with h | h
    · omega
    · exact ih _ b h

theorem natOfLE_natLE (m size : Nat) : natOfLE (natLE m size) = m % 256 ^ size := by
  induction size generalizing m with
  | zero => simp [natLE, natOfLE, Nat.mod_one]
  | succ n ih =>
    simp only [natLE, natOfLE, ih]
    rw [pow_succ', Nat.mod_mul]

theorem length_intLE (v : Int) (size : Nat) : (intLE v size).length = size := by
  simp [intLE, length_natLE]

theorem intLE_all_lt (v : Int) (size : Nat) : ∀ b ∈ intLE v size, b < 256 :=
  natLE_all_lt _ _

theorem map_mod_256 (l : List Nat) (h : ∀ b ∈ l, b < 256) : l.map (· % 256) = l := by
  induction l with
  | nil => rfl
  | cons b bs ih =>
    have hb : b < 256 := h b (by simp)
    have ht : bs.map (· % 256) = bs := ih (fun x hx => h x (by simp [hx]))
    simp [Nat.mod_eq_of_lt hb, ht]

theorem asSigned_intLE (size : Nat) (v : Int)
    (h1 : -(((256 ^ size : Nat) : Int)) ≤ 2 * v) (h2 : 2 * v < ((256 ^ size : Nat) : Int)) :
    asSigned size (natOfLE (intLE v size)) = v := by
  have hK : (0 : Int) < ((256 ^ size : Nat) : Int) := by positivity
  set K : Int := ((256 ^ size : Nat) : Int) with hKdef
  have hr0 : 0 ≤ v % K := Int.emod_nonneg v (by omega)
  have hrK : v % K < K := Int.emod_lt_of_pos v hK
  have hmod : (v % K).toNat % 256 ^ size = (v % K).toNat := by
    apply Nat.mod_eq_of_lt
    omega
  have hval : intLE v size = natLE (v % K).toNat size := by
    simp [intLE, hKdef]
  rw [hval, natOfLE_natLE, hmod]
  have hcast : (((v % K).toNat : Int)) = v % K := Int.toNat_of_nonneg hr0
  by_cases hv : 0 ≤ v
  · have hrv : v % K = v := Int.emod_eq_of_lt hv (by omega)
    unfold asSigned
    rw [if_pos]
    · omega
    · omega
  · have hvK : v % K = v + K := by
      have h3 : (v + K) % K = v % K := by
        simp
      have h4 : (v + K) % K = v + K := Int.emod_eq_of_lt (by omega) (by omega)
      omega
    unfold asSigned
    rw [if_neg]
    · omega
    · omega

/-- The universe of JavaScript values the codec transports.  `jint` is a
finite number whose floor equals itself (the `dump_any` integer test);
`jreal` is any other number, carried as its IEEE-754 bit pattern; `jstr` is a
string as UTF-8 bytes; `jint64` is the Int64 carrier object; `jundef` is the
JS `undefined` value (legal only as an object property value, where the
encoder erases it); `jobj` keeps properties in insertion order. -/
inductive JVal where
  | jint : Int → JVal
  | jreal : Nat → JVal
  | jstr : List Nat → JVal
  | jbool : Bool → JVal
  | jnull : JVal
  | jint64 : Int → JVal
  | jundef : JVal
  | jarr : List JVal → JVal
  | jobj : List (List Nat × JVal) → JVal

/-- Byte sequence of a Lean string, used to write the JS string literals of
the source as byte lists.  Every string literal this development uses is
ASCII, for which the UTF-8 encoding is the identity on code points. -/
def strBytes (s : String) : List Nat :=
  s.data.map (fun c => c.toNat)

/-- `typeof v == "undefined"` test from `dump_any`'s object passes. -/
def isUndef : JVal → Bool
  | .jundef => true
  | _ => false

mutual

/-- Deep-equality image of a value after one encode/decode trip: object
properties whose value is `undefined` are erased (the encoder omits them),
everything else is preserved. -/
def erase : JVal → JVal
  | .jarr xs => .jarr (eraseList xs)
  | .jobj fs => .jobj (eraseFields fs)
  | v => v

def eraseList : List JVal → List JVal
  | [] => []
  | x :: xs => erase x :: eraseList xs

def eraseFields : List (List Nat × JVal) → List (List Nat × JVal)
  | [] => []
  | (k, v) :: fs =>
    if isUndef v then eraseFields fs else (k, erase v) :: eraseFields fs

end

inductive EncErr where
  | cannotSerialize (ty : String)
  | propContext (key : List Nat) (e : EncErr)
  | lengthRange

/-- Modelled from the spec: the Int64 carrier (`src/bser/int64.ts` is imported
by the codec but is not among the sources).  Per the spec it carries a 64-bit
signed integer; `dump_int64` takes its big-endian two's-complement buffer and
byte-swaps it on a little-endian host, i.e. it writes tag `0x06` followed by
the 8 little-endian two's-complement bytes of the value. -/
def dump_int64 (val : Int) : List Nat :=
  6 :: intLE val 8

/-- BSER integer encoding (src/bser/mod.ts `dump_int`): compare
`Math.abs(val)` against 127, 32767, 2147483647 in turn and take the smallest
width whose bound is not exceeded, else fall through to INT64. -/
def dump_int (val : Int) : List Nat :=
  if val.natAbs ≤ 127 then 3 :: intLE val 1
  else if val.natAbs ≤ 32767 then 4 :: intLE val 2
  else if val.natAbs ≤ 2147483647 then 5 :: intLE val 4
  else dump_int64 val

/-- The string case of `dump_any` (factored out because the object pass also
feeds each property key, a string, through `dump_any`): tag `0x02`, the
UTF-8 byte length as a BSER integer, then the bytes. -/
def dump_str (s : List Nat) : List Nat :=
  2 :: (dump_int (s.length : Int) ++ s)

/-- Object fields that survive encoding: `dump_any` skips properties whose
value is `undefined` (both in the first counting pass and in the second
emitting pass). -/
def definedFields (fs : List (List Nat × JVal)) : List (List Nat × JVal) :=
  fs.filter (fun p => !isUndef p.2)

mutual

/-- Recursive BSER value dumper (src/bser/mod.ts `dump_any`), dispatching on
the runtime type of the value exactly as the source does. -/
def dump_any : JVal → Except EncErr (List Nat)
  | .jint n => .ok (dump_int n)
  | .jreal bits => .ok (7 :: natLE bits 8)
  | .jstr s => .ok (dump_str s)
  | .jbool b => .ok [if b then 8 else 9]
  | .jnull => .ok [10]
  | .jint64 n => .ok (dump_int64 n)
  | .jundef => .error (.cannotSerialize ("undefined"))
  | .jarr xs =>
    match dumpList xs with
    | .error e => .error e
    | .ok body => .ok (0 :: (dump_int (xs.length : Int) ++ body))
  | .jobj fs =>
    match dumpFields fs with
    | .error e => .error e
    | .ok body => .ok (1 :: (dump_int ((definedFields fs).length : Int) ++ body))

/-- Sequential encoding of array elements. -/
def dumpList : List JVal → Except EncErr (List Nat)
  | [] => .ok []
  | x :: xs =>
    match dump_any x with
    | .error e => .error e
    | .ok e1 =>
      match dumpList xs with
      | .error e => .error e
      | .ok e2 => .ok (e1 ++ e2)

/-- Second pass of the object case of `dump_any`: emit each defined property
as key string then value; a failure while dumping the value is re-raised with
the property name attached. -/
def dumpFields : List (List Nat × JVal) → Except EncErr (List Nat)
  | [] => .ok []
  | (k, v) :: fs =>
    if isUndef v then dumpFields fs
    else
      match (dump_any v).mapError (EncErr.propContext k) with
      | .error e => .error e
      | .ok ve =>
        match dumpFields fs with
        | .error e => .error e
        | .ok rest => .ok (dump_str k ++ ve ++ rest)

end

/-- `dumpToBuffer` (src/bser/mod.ts): write header bytes `00 01`, an INT32
length slot as a placeholder, the payload, then back-patch the length as
`writeOffset - 7`.  `Buffer.writeInt32LE` rejects values above `2^31 - 1`,
hence the range guard on the back-patched length. -/
def dumpToBuffer (val : JVal) : Except EncErr (List Nat) :=
  match dump_any val with
  | .error e => .error e
  | .ok payload =>
    let full := 0 :: 1 :: 5 :: (intLE 0 4 ++ payload)
    let len : Int := (full.length : Int) - 7
    if len ≤ 2147483647 then
      .ok (full.take 3 ++ (intLE len 4 ++ full.drop 7))
    else .error .lengthRange

mutual

/-- Well-formedness of a value as a JavaScript runtime value: integral
numbers are safe integers, strings and keys are octet sequences, an Int64
carrier holds a 64-bit value too large to convert back to a plain number,
object keys are distinct (as `Object.keys` guarantees), and `undefined`
appears only as an object property value. -/
def wfB : JVal → Bool
  | .jint n => decide (n.natAbs < 9007199254740992)
  | .jreal bits => decide (bits < 18446744073709551616)
  | .jstr s => s.all (fun b => decide (b < 256)) && decide (s.length < 9007199254740992)
  | .jbool _ => true
  | .jnull => true
  | .jint64 n =>
    decide (-(9223372036854775808 : Int) ≤ n) && decide (n < 9223372036854775808) &&
      decide (9007199254740992 ≤ n.natAbs)
  | .jundef => false
  | .jarr xs => decide (xs.length < 9007199254740992) && wfList xs
  | .jobj fs =>
    decide (fs.length < 9007199254740992) && decide ((fs.map Prod.fst).Nodup) && wfFields fs

def wfList : List JVal → Bool
  | [] => true
  | x :: xs => wfB x && wfList xs

def wfFields : List (List Nat × JVal) → Bool
  | [] => true
  | (k, v) :: fs =>
    k.all (fun b => decide (b < 256)) && decide (k.length < 9007199254740992) &&
      (isUndef v || wfB v) && wfFields fs

end

mutual

/-- Nesting depth of a value; each level of the recursive decoder consumes at
least one byte before descending, so the depth bounds the decoder fuel any
encoding of the value can need. -/
def jdepth : JVal → Nat
  | .jarr xs => jdepthList xs + 1
  | .jobj fs => jdepthFields fs + 1
  | _ => 1

def jdepthList : List JVal → Nat
  | [] => 0
  | x :: xs => max (jdepth x) (jdepthList xs)

def jdepthFields : List (List Nat × JVal) → Nat
  | [] => 0
  | (_, v) :: fs => max (jdepth v) (jdepthFields fs)

end

inductive DecErr where
  | raise (reason : String)
  | shortRead (wanted got : Nat)
  | excessData
  | noBser

/-- A decoded BSER integer before it reaches `decodeAny`: `num` is a plain JS
number, `big` an Int64 object that `readInt` left unconverted. -/
inductive IVal where
  | num : Int → IVal
  | big : Int → IVal

/-- The byte the accumulator holds at `pos` (a `Buffer` stores octets, hence
the reduction mod 256; callers guard `pos` by `readAvail`). -/
def byteAt (data : List Nat) (pos : Nat) : Nat :=
  (data.getD pos 0) % 256

/-- Read `n` bytes at `pos`, or `none` when fewer than `n` are readable
(`assertReadableSize` failure). -/
def readBytes (data : List Nat) (pos n : Nat) : Option (List Nat) :=
  if pos + n ≤ data.length then some (((data.drop pos).take n).map (· % 256)) else none

/-- Modelled from the spec: `Int64.prototype.valueOf` (src/bser/int64.ts is
not among the sources) is finite exactly when the magnitude is below `2^53`;
`Accumulator.readInt` converts a finite Int64 to a plain number and otherwise
returns the Int64 carrier. -/
def int64ToNum (v : Int) : IVal :=
  if v.natAbs < 9007199254740992 then .num v else .big v

/-- `Accumulator.readInt` at a given size: read the host-endian signed value;
an 8-byte read goes through the Int64 carrier. -/
def readIntSized (data : List Nat) (pos size : Nat) : Except DecErr (IVal × Nat) :=
  match readBytes data pos size with
  | none => .error (.shortRead size (data.length - pos))
  | some bs =>
    if size = 8 then .ok (int64ToNum (asSigned 8 (natOfLE bs)), pos + 8)
    else if size = 1 ∨ size = 2 ∨ size = 4 then .ok (.num (asSigned size (natOfLE bs)), pos + size)
    else .error (.raise ("invalid integer size"))

/-- Which integer payload size a BSER int tag announces. -/
def intTagSize (code : Int) : Option Nat :=
  if code = 3 then some 1
  else if code = 4 then some 2
  else if code = 5 then some 4
  else if code = 6 then some 8
  else none

/-- `BunserBuf.decodeInt` (src/bser/mod.ts): peek the tag, size it, read the
payload.  With `relaxSizeAsserts` the function reports `none` (the source's
`false`) instead of failing when the tag or its payload is not fully
readable. -/
def decodeInt (data : List Nat) (pos : Nat) (relaxSizeAsserts : Bool) :
    Except DecErr (Option (IVal × Nat)) :=
  if relaxSizeAsserts ∧ data.length ≤ pos then .ok none
  else if data.length ≤ pos then .error (.shortRead 1 (data.length - pos))
  else
    match intTagSize (asSigned 1 (byteAt data pos)) with
    | none => .error (.raise ("invalid bser int encoding"))
    | some size =>
      if relaxSizeAsserts ∧ data.length < pos + 1 + size then .ok none
      else (readIntSized data (pos + 1) size).map (fun r => some r)

/-- Plain (non-relaxed) `decodeInt` as used by every decoder but the PDU
header scan.  Without `relaxSizeAsserts` the `none` paths of `decodeInt` are
unreachable, so the first branch only documents that. -/
def decodeIntReq (data : List Nat) (pos : Nat) : Except DecErr (IVal × Nat) :=
  match decodeInt data pos false with
  | .ok none => .error (.raise ("unreachable: strict decodeInt returned false"))
  | .ok (some r) => .ok r
  | .error e => .error e

/-- Numeric use of a decoded integer (string lengths, item counts, the PDU
length).  The big case is unreachable on well-formed input: those counts are
emitted as INT8..INT32 by the encoder. -/
def ivalToInt : IVal → Int
  | .num n => n
  | .big n => n

/-- `BunserBuf.expectCode`: read one byte and fail unless it is the expected
opcode. -/
def expectCode (data : List Nat) (pos : Nat) (expected : Int) : Except DecErr Nat :=
  if data.length ≤ pos then .error (.shortRead 1 (data.length - pos))
  else if asSigned 1 (byteAt data pos) = expected then .ok (pos + 1)
  else .error (.raise ("expected bser opcode"))

/-- `BunserBuf.decodeString`: opcode `0x02`, integer byte length, then the
raw bytes.  A negative length (unreachable from the encoder) skips the
readable-size assertion and moves the cursor backwards like
`readOffset += size` does. -/
def decodeString (data : List Nat) (pos : Nat) : Except DecErr (List Nat × Nat) :=
  match expectCode data pos 2 with
  | .error e => .error e
  | .ok p1 =>
    match decodeIntReq data p1 with
    | .error e => .error e
    | .ok (iv, p2) =>
      let len := ivalToInt iv
      if (data.length - p2 : Int) < len then .error (.shortRead len.toNat (data.length - p2))
      else if 0 ≤ len then
        .ok (((data.drop p2).take len.toNat).map (· % 256), p2 + len.toNat)
      else .ok ([], ((p2 : Int) + len).toNat)

/-- One `res[key] = val` step of `decodeObject`/`decodeTemplate`: JS property
assignment overwrites an existing key in place, else appends. -/
def objInsert : List (List Nat × JVal) → List Nat → JVal → List (List Nat × JVal)
  | [], k, v => [(k, v)]
  | (k', v') :: fs, k, v =>
    if k' = k then (k', v) :: fs else (k', v') :: objInsert fs k v

/-- JS coerces a computed property key with ToString.  The decoder only
produces string keys for objects; templates could in principle carry
non-string key values, for which this models the coercion exactly for the
primitive cases and approximates the (protocol-unused) object cases. -/
def toPropertyKey : JVal → List Nat
  | .jstr s => s
  | .jint n => strBytes (toString n)
  | .jbool b => strBytes (if b then "true" else "false")
  | .jnull => strBytes ("null")
  | .jundef => strBytes ("undefined")
  | _ => strBytes ("[object Object]")

/-- The element loop of `decodeArray`: decode `n` values in sequence. -/
def decodeLoop (dec : Nat → Except DecErr (JVal × Nat)) :
    Nat → Nat → Except DecErr (List JVal × Nat)
  | 0, pos => .ok ([], pos)
  | n + 1, pos =>
    match dec pos with
    | .error e => .error e
    | .ok (v, p) =>
      match decodeLoop dec n p with
      | .error e => .error e
      | .ok (vs, p') => .ok (v :: vs, p')

/-- The member loop of `decodeObject`: `n` times, a string key then a value,
assigned into the result object. -/
def decodeFieldsLoop (data : List Nat) (dec : Nat → Except DecErr (JVal × Nat)) :
    Nat → Nat → List (List Nat × JVal) → Except DecErr (List (List Nat × JVal) × Nat)
  | 0, pos, acc => .ok (acc, pos)
  | n + 1, pos, acc =>
    match decodeString data pos with
    | .error e => .error e
    | .ok (k, p1) =>
      match dec p1 with
      | .error e => .error e
      | .ok (v, p2) => decodeFieldsLoop data dec n p2 (objInsert acc k v)

/-- `BunserBuf.decodeArray`: opcode `0x00`, item count, then the items. -/
def decodeArray (data : List Nat) (dec : Nat → Except DecErr (JVal × Nat)) (pos : Nat) :
    Except DecErr (List JVal × Nat) :=
  match expectCode data pos 0 with
  | .error e => .error e
  | .ok p1 =>
    match decodeIntReq data p1 with
    | .error e => .error e
    | .ok (iv, p2) => decodeLoop dec (ivalToInt iv).toNat p2

/-- `BunserBuf.decodeObject`: opcode `0x01`, member count, then the members. -/
def decodeObject (data : List Nat) (dec : Nat → Except DecErr (JVal × Nat)) (pos : Nat) :
    Except DecErr (List (List Nat × JVal) × Nat) :=
  match expectCode data pos 1 with
  | .error e => .error e
  | .ok p1 =>
    match decodeIntReq data p1 with
    | .error e => .error e
    | .ok (iv, p2) => decodeFieldsLoop data dec (ivalToInt iv).toNat p2 []

/-- Per-row slot loop of `decodeTemplate`: for each key, either the SKIP
opcode `0x0c` (key absent on this row) or a value. -/
def templateCols (data : List Nat) (dec : Nat → Except DecErr (JVal × Nat)) :
    List JVal → Nat → List (List Nat × JVal) → Except DecErr (List (List Nat × JVal) × Nat)
  | [], pos, obj => .ok (obj, pos)
  | key :: keys, pos, obj =>
    if data.length ≤ pos then .error (.shortRead 1 (data.length - pos))
    else if asSigned 1 (byteAt data pos) = 12 then templateCols data dec keys (pos + 1) obj
    else
      match dec pos with
      | .error e => .error e
      | .ok (v, p) => templateCols data dec keys p (objInsert obj (toPropertyKey key) v)

/-- Row loop of `decodeTemplate`. -/
def templateRows (data : List Nat) (dec : Nat → Except DecErr (JVal × Nat)) (keys : List JVal) :
    Nat → Nat → List JVal → Except DecErr (List JVal × Nat)
  | 0, pos, acc => .ok (acc, pos)
  | n + 1, pos, acc =>
    match templateCols data dec keys pos [] with
    | .error e => .error e
    | .ok (obj, p) => templateRows data dec keys n p (acc ++ [.jobj obj])

/-- `BunserBuf.decodeTemplate`: opcode `0x0b`, an array of keys, a row count,
then the rows; decodes to an array of objects. -/
def decodeTemplate (data : List Nat) (dec : Nat → Except DecErr (JVal × Nat)) (pos : Nat) :
    Except DecErr (List JVal × Nat) :=
  match expectCode data pos 11 with
  | .error e => .error e
  | .ok p1 =>
    match decodeArray data dec p1 with
    | .error e => .error e
    | .ok (keys, p2) =>
      match decodeIntReq data p2 with
      | .error e => .error e
      | .ok (iv, p3) => templateRows data dec keys (ivalToInt iv).toNat p3 []

/-- The value `decodeInt` hands back to `decodeAny`: a plain JS number, or
the Int64 carrier when `readInt` could not convert it. -/
def ivalVal : IVal → JVal
  | .num n => .jint n
  | .big n => .jint64 n

/-- `BunserBuf.decodeAny`, dispatching on the peeked opcode.  The fuel
parameter is a modelling artifact: the source recursion terminates because
every recursive call consumes at least one byte first, so any fuel exceeding
the number of readable bytes (as `BunserBuf.process` supplies) behaves like
the unbounded source recursion. -/
def decodeAnyF : Nat → List Nat → Nat → Except DecErr (JVal × Nat)
  | 0, _, _ => .error (.raise ("decoder fuel exhausted"))
  | f + 1, data, pos =>
    if data.length ≤ pos then .error (.shortRead 1 (data.length - pos))
    else
      let code := asSigned 1 (byteAt data pos)
      if code = 3 ∨ code = 4 ∨ code = 5 ∨ code = 6 then
        (decodeIntReq data pos).map (fun r => (ivalVal r.1, r.2))
      else if code = 7 then
        match readBytes data (pos + 1) 8 with
        | none => .error (.shortRead 8 (data.length - (pos + 1)))
        | some bs => .ok (.jreal (natOfLE bs), pos + 9)
      else if code = 8 then .ok (.jbool true, pos + 1)
      else if code = 9 then .ok (.jbool false, pos + 1)
      else if code = 10 then .ok (.jnull, pos + 1)
      else if code = 2 then (decodeString data pos).map (fun r => (.jstr r.1, r.2))
      else if code = 0 then (decodeArray data (decodeAnyF f data) pos).map (fun r => (.jarr r.1, r.2))
      else if code = 1 then (decodeObject data (decodeAnyF f data) pos).map (fun r => (.jobj r.1, r.2))
      else if code = 11 then (decodeTemplate data (decodeAnyF f data) pos).map (fun r => (.jarr r.1, r.2))
      else .error (.raise ("unhandled bser opcode"))

/-- The streaming decoder's state (src/bser/mod.ts `BunserBuf`): the
accumulated bytes, the read cursor, the framing state (`0` = ST_NEED_PDU,
`1` = ST_FILL_PDU) and the PDU length slot (`none` models the source's
`false`/unset). -/
structure BunserBuf where
  data : List Nat
  readOffset : Nat
  state : Nat
  pduLen : Option Int

/-- `Accumulator.readAvail` for the modelled buffer. -/
def bbAvail (b : BunserBuf) : Nat :=
  b.data.length - b.readOffset

/-- The ST_FILL_PDU half of `BunserBuf.process` in synchronous mode: wait for
`pduLen` readable bytes, then run `decodeAny` once and return its value (the
synchronous path returns before the state reset).  The fuel passed to the
decoder exceeds the readable byte count, so it never runs out (each decoder
level consumes at least one byte before recursing). -/
def bbFill (b : BunserBuf) : Except DecErr (BunserBuf × Option JVal) :=
  if b.state = 1 then
    if ((bbAvail b : Nat) : Int) < b.pduLen.getD 0 then .ok (b, none)
    else
      match decodeAnyF (bbAvail b + 1) b.data b.readOffset with
      | .error e => .error e
      | .ok (v, p) => .ok ({ b with readOffset := p }, some v)
  else .ok (b, none)

/-- `BunserBuf.process` in synchronous mode.  In ST_NEED_PDU: wait for two
readable bytes, check the `00 01` header, then a relaxed integer decode for
the PDU length; on `false` rewind the two header bytes (net cursor movement
zero) and report no value, else record the length, move to ST_FILL_PDU and
fall through to the fill half. -/
def bbProcessSync (b : BunserBuf) : Except DecErr (BunserBuf × Option JVal) :=
  if b.state = 0 then
    if bbAvail b < 2 then .ok (b, none)
    else if asSigned 1 (byteAt b.data b.readOffset) ≠ 0 then
      .error (.raise ("expected bser opcode"))
    else if asSigned 1 (byteAt b.data (b.readOffset + 1)) ≠ 1 then
      .error (.raise ("expected bser opcode"))
    else
      match decodeInt b.data (b.readOffset + 2) true with
      | .error e => .error e
      | .ok none => .ok ({ b with pduLen := none }, none)
      | .ok (some (iv, p)) =>
        bbFill { b with readOffset := p, state := 1, pduLen := some (ivalToInt iv) }
  else bbFill b

/-- `loadFromBuffer` (src/bser/mod.ts): run one synchronous append/process on
a fresh `BunserBuf`; fail with the excess-data error if readable bytes
remain, and with the no-bser error if no value was produced. -/
def loadFromBuffer (input : List Nat) : Except DecErr JVal :=
  match bbProcessSync (BunserBuf.mk input 0 0 none) with
  | .error e => .error e
  | .ok (b, res) =>
    if 0 < bbAvail b then .error .excessData
    else
      match res with
      | none => .error .noBser
      | some v => .ok v

theorem byteAt_append (pre l : List Nat) (k : Nat) :
    byteAt (pre ++ l) (pre.length + k) = byteAt l k := by
  unfold byteAt
  congr 1
  rw [List.getD_append_right]
  · simp
  · omega

theorem readBytes_append (pre l post : List Nat) (n : Nat) (h : n ≤ l.length) :
    readBytes (pre ++ (l ++ post)) pre.length n = some ((l.take n).map (· % 256)) := by
  unfold readBytes
  rw [if_pos]
  · rw [List.drop_left, List.take_append_of_le_length h]
  · simp
    omega

/-- C2: for every finite integer-valued number, the encoder picks the integer
tag by comparing `Math.abs(v)` against 127, 32767 and 2147483647 in turn
(tags `0x03` INT8, `0x04` INT16, `0x05` INT32, `0x06` INT64); in particular
127, 128, 32767, 32768, 2147483647, 2147483648 get INT8, INT16, INT16,
INT32, INT32, INT64 and -128 gets INT16 rather than INT8. -/
theorem dump_int_width_selection :
    (∀ v : Int, (dump_int v).head? =
      some (if v.natAbs ≤ 127 then 3
            else if v.natAbs ≤ 32767 then 4
            else if v.natAbs ≤ 2147483647 then 5 else 6)) ∧
    (dump_int 127).head? = some 3 ∧ (dump_int 128).head? = some 4 ∧
    (dump_int 32767).head? = some 4 ∧ (dump_int 32768).head? = some 5 ∧
    (dump_int 2147483647).head? = some 5 ∧ (dump_int 2147483648).head? = some 6 ∧
    (dump_int (-128)).head? = some 4 := by
  refine ⟨?_, rfl, rfl, rfl, rfl, rfl, rfl, rfl⟩
  intro v
  unfold dump_int dump_int64
  split_ifs <;> rfl

/-- C5: every PDU `dumpToBuffer` produces is `00 01`, an INT32 tag `0x05`
with a little-endian length equal to the total length minus 7, then the
payload; and `dumpToBuffer 1` is exactly `00 01 05 02 00 00 00 03 01`. -/
theorem dumpToBuffer_envelope :
    (∀ (v : JVal) (payload : List Nat), dump_any v = .ok payload →
      (payload.length : Int) ≤ 2147483647 →
      dumpToBuffer v = .ok (0 :: 1 :: 5 :: (intLE (payload.length : Int) 4 ++ payload)) ∧
      asSigned 4 (natOfLE (intLE (payload.length : Int) 4)) =
        ((0 :: 1 :: 5 :: (intLE (payload.length : Int) 4 ++ payload)).length : Int) - 7) ∧
    dumpToBuffer (.jint 1) = .ok [0, 1, 5, 2, 0, 0, 0, 3, 1] := by
  constructor
  · intro v payload h hlen
    have hlfull : ((0 :: 1 :: 5 :: ([0, 0, 0, 0] ++ payload)).length : Int) - 7
        = (payload.length : Int) := by
      simp
      omega
    constructor
    · unfold dumpToBuffer
      rw [h]
      show (if ((0 :: 1 :: 5 :: (intLE 0 4 ++ payload)).length : Int) - 7 ≤ 2147483647 then
          Except.ok ((0 :: 1 :: 5 :: (intLE 0 4 ++ payload)).take 3 ++
            (intLE (((0 :: 1 :: 5 :: (intLE 0 4 ++ payload)).length : Int) - 7) 4 ++
              (0 :: 1 :: 5 :: (intLE 0 4 ++ payload)).drop 7))
        else Except.error EncErr.lengthRange) = _
      rw [show intLE 0 4 = [0, 0, 0, 0] from rfl, hlfull, if_pos hlen]
      rfl
    · have hrt : asSigned 4 (natOfLE (intLE (payload.length : Int) 4)) = (payload.length : Int) := by
        apply asSigned_intLE
        · have h0 : (0 : Int) ≤ (payload.length : Int) := by positivity
          norm_num
          omega
        · norm_num
          omega
      rw [hrt]
      simp [length_intLE]
      omega
  · rfl

/-- Closed witness for the envelope theorem at the value `1`. -/
theorem dumpToBuffer_envelope_witness :
    dumpToBuffer (.jint 1) = .ok (0 :: 1 :: 5 :: (intLE (([3, 1] : List Nat).length : Int) 4 ++ [3, 1])) :=
  ((dumpToBuffer_envelope.1 (.jint 1) [3, 1] rfl (by norm_num)).1)

theorem two_le_dump_int_length (v : Int) : 2 ≤ (dump_int v).length := by
  unfold dump_int dump_int64
  split_ifs <;> simp [length_intLE]

theorem decodeIntReq_core (pre post : List Nat) (t size : Nat) (v : Int)
    (htag : intTagSize (asSigned 1 t) = some size) (ht : t < 256)
    (h1 : -(((256 ^ size : Nat) : Int)) ≤ 2 * v) (h2 : 2 * v < ((256 ^ size : Nat) : Int)) :
    decodeIntReq (pre ++ (t :: (intLE v size ++ post))) pre.length =
      .ok ((if size = 8 then int64ToNum v else .num v), pre.length + (1 + size)) := by
  have hsz : size = 1 ∨ size = 2 ∨ size = 4 ∨ size = 8 := by
    unfold intTagSize at htag
    split_ifs at htag <;> simp_all
  have hlen : (pre ++ (t :: (intLE v size ++ post))).length
      = pre.length + (1 + (size + post.length)) := by
    simp [length_intLE]
    omega
  have hbyte : byteAt (pre ++ (t :: (intLE v size ++ post))) pre.length = t := by
    have hb := byteAt_append pre (t :: (intLE v size ++ post)) 0
    simp only [Nat.add_zero] at hb
    rw [hb]
    simp [byteAt, Nat.mod_eq_of_lt ht]
  have hdata : pre ++ (t :: (intLE v size ++ post))
      = (pre ++ [t]) ++ (intLE v size ++ post) := by simp
  have hread : readBytes (pre ++ (t :: (intLE v size ++ post))) (pre.length + 1) size
      = some (intLE v size) := by
    rw [hdata]
    have hr := readBytes_append (pre ++ [t]) (intLE v size) post size
      (le_of_eq (length_intLE v size).symm)
    simp only [List.length_append, List.length_cons, List.length_nil] at hr
    rw [hr]
    rw [List.take_of_length_le (le_of_eq (length_intLE v size))]
    rw [map_mod_256 _ (intLE_all_lt v size)]
  have hno : ¬ ((pre ++ (t :: (intLE v size ++ post))).length ≤ pre.length) := by
    rw [hlen]
    omega
  have hsigned : asSigned size (natOfLE (intLE v size)) = v := asSigned_intLE size v h1 h2
  unfold decodeIntReq decodeInt
  simp only [Bool.false_eq_true, false_and, if_false, if_neg hno, hbyte, htag]
  unfold readIntSized
  rw [hread]
  rcases hsz with h | h | h | h <;> subst h <;> simp [hsigned, Except.map]

theorem decodeIntReq_dump_int (v : Int)
    (h1 : -(9223372036854775808 : Int) ≤ v) (h2 : v < 9223372036854775808)
    (pre post : List Nat) :
    decodeIntReq (pre ++ (dump_int v ++ post)) pre.length =
      .ok (int64ToNum v, pre.length + (dump_int v).length) := by
  unfold dump_int dump_int64
  split_ifs with ha hb hc
  · have hcore := decodeIntReq_core pre post 3 1 v (by decide) (by decide)
      (by norm_num; omega) (by norm_num; omega)
    simp only [List.cons_append, List.append_assoc] at hcore ⊢
    rw [hcore]
    have hnum : int64ToNum v = .num v := by
      unfold int64ToNum
      rw [if_pos (by omega)]
    simp [hnum, length_intLE]
  · have hcore := decodeIntReq_core pre post 4 2 v (by decide) (by decide)
      (by norm_num; omega) (by norm_num; omega)
    simp only [List.cons_append, List.append_assoc] at hcore ⊢
    rw [hcore]
    have hnum : int64ToNum v = .num v := by
      unfold int64ToNum
      rw [if_pos (by omega)]
    simp [hnum, length_intLE]
  · have hcore := decodeIntReq_core pre post 5 4 v (by decide) (by decide)
      (by norm_num; omega) (by norm_num; omega)
    simp only [List.cons_append, List.append_assoc] at hcore ⊢
    rw [hcore]
    have hnum : int64ToNum v = .num v := by
      unfold int64ToNum
      rw [if_pos (by omega)]
    simp [hnum, length_intLE]
  · have hcore := decodeIntReq_core pre post 6 8 v (by decide) (by decide)
      (by norm_num; omega) (by norm_num; omega)
    simp only [List.cons_append, List.append_assoc] at hcore ⊢
    rw [hcore]
    simp [length_intLE]

theorem int64ToNum_small (v : Int) (h : v.natAbs < 9007199254740992) :
    int64ToNum v = .num v := by
  unfold int64ToNum
  rw [if_pos h]

theorem decodeString_dump_str (s : List Nat) (hb : ∀ b ∈ s, b < 256)
    (hl : s.length < 9007199254740992) (pre post : List Nat) :
    decodeString (pre ++ (dump_str s ++ post)) pre.length =
      .ok (s, pre.length + (dump_str s).length) := by
  have hdata : pre ++ (dump_str s ++ post)
      = pre ++ (2 :: (dump_int (s.length : Int) ++ (s ++ post))) := by
    simp [dump_str]
  rw [hdata]
  have hlen : (pre ++ (2 :: (dump_int (s.length : Int) ++ (s ++ post)))).length
      = pre.length + (1 + ((dump_int (s.length : Int)).length + (s.length + post.length))) := by
    simp
    omega
  have hno : ¬ ((pre ++ (2 :: (dump_int (s.length : Int) ++ (s ++ post)))).length ≤ pre.length) := by
    rw [hlen]
    omega
  have hbyte : byteAt (pre ++ (2 :: (dump_int (s.length : Int) ++ (s ++ post)))) pre.length = 2 := by
    have hb2 := byteAt_append pre (2 :: (dump_int (s.length : Int) ++ (s ++ post))) 0
    simp only [Nat.add_zero] at hb2
    rw [hb2]
    rfl
  have hint : decodeIntReq (pre ++ (2 :: (dump_int (s.length : Int) ++ (s ++ post)))) (pre.length + 1)
      = .ok (.num (s.length : Int), (pre.length + 1) + (dump_int (s.length : Int)).length) := by
    have hd2 : pre ++ (2 :: (dump_int (s.length : Int) ++ (s ++ post)))
        = (pre ++ [2]) ++ (dump_int (s.length : Int) ++ (s ++ post)) := by simp
    rw [hd2]
    have hcore := decodeIntReq_dump_int (s.length : Int) (by omega) (by omega) (pre ++ [2]) (s ++ post)
    rw [int64ToNum_small (s.length : Int) (by simp; omega)] at hcore
    simp only [List.length_append, List.length_cons, List.length_nil] at hcore
    rw [hcore]
  have hpre2 : pre ++ (2 :: (dump_int (s.length : Int) ++ (s ++ post)))
      = ((pre ++ [2]) ++ dump_int (s.length : Int)) ++ (s ++ post) := by simp
  have hplen : ((pre ++ [2]) ++ dump_int (s.length : Int)).length
      = (pre.length + 1) + (dump_int (s.length : Int)).length := by
    simp
    omega
  have hdrop : ((pre ++ (2 :: (dump_int (s.length : Int) ++ (s ++ post)))).drop
      ((pre.length + 1) + (dump_int (s.length : Int)).length)) = s ++ post := by
    rw [hpre2, ← hplen, List.drop_left]
  have htn : ((s.length : Int)).toNat = s.length := by omega
  have hnotlt : ¬ (((pre ++ (2 :: (dump_int (s.length : Int) ++ (s ++ post)))).length : Int)
      - (((pre.length + 1) + (dump_int (s.length : Int)).length : Nat) : Int) < (s.length : Int)) := by
    rw [hlen]
    push_cast
    omega
  unfold decodeString expectCode
  rw [if_neg hno, hbyte]
  rw [if_pos (show asSigned 1 2 = 2 from by decide)]
  simp only [hint, ivalToInt]
  rw [if_neg hnotlt]
  rw [if_pos (show (0 : Int) ≤ (s.length : Int) from by positivity)]
  rw [hdrop, htn]
  rw [List.take_append_of_le_length (le_refl s.length), List.take_length]
  rw [map_mod_256 s hb]
  simp only [Except.ok.injEq, Prod.mk.injEq, true_and]
  simp [dump_str]
  omega

theorem decodeAnyF_dump_int (m : Int)
    (h1 : -(9223372036854775808 : Int) ≤ m) (h2 : m < 9223372036854775808)
    (f : Nat) (pre post : List Nat) :
    decodeAnyF (f + 1) (pre ++ (dump_int m ++ post)) pre.length =
      .ok (ivalVal (int64ToNum m), pre.length + (dump_int m).length) := by
  obtain ⟨t, rest, heq, htags⟩ :
      ∃ t rest, dump_int m = t :: rest ∧ (t = 3 ∨ t = 4 ∨ t = 5 ∨ t = 6) := by
    unfold dump_int dump_int64
    split_ifs
    · exact ⟨3, _, rfl, by omega⟩
    · exact ⟨4, _, rfl, by omega⟩
    · exact ⟨5, _, rfl, by omega⟩
    · exact ⟨6, _, rfl, by omega⟩
  have ht : t < 256 := by omega
  have hno : ¬ ((pre ++ (dump_int m ++ post)).length ≤ pre.length) := by
    have h2l := two_le_dump_int_length m
    simp only [List.length_append]
    omega
  have hbyte : byteAt (pre ++ (dump_int m ++ post)) pre.length = t := by
    have hb := byteAt_append pre (dump_int m ++ post) 0
    simp only [Nat.add_zero] at hb
    rw [hb, heq]
    simp [byteAt, Nat.mod_eq_of_lt ht]
  have hcode : asSigned 1 (byteAt (pre ++ (dump_int m ++ post)) pre.length) = (t : Int) := by
    rw [hbyte]
    unfold asSigned
    rw [if_pos (by omega)]
  have hbr : ((t : Int) = 3 ∨ (t : Int) = 4 ∨ (t : Int) = 5 ∨ (t : Int) = 6) := by omega
  unfold decodeAnyF
  rw [if_neg hno]
  simp only [hcode]
  rw [if_pos hbr]
  rw [decodeIntReq_dump_int m h1 h2 pre post]
  rfl

theorem jdepth_le_list (x : JVal) (xs : List JVal) (h : x ∈ xs) :
    jdepth x ≤ jdepthList xs := by
  induction xs with
  | nil => cases h
  | cons y ys ih =>
    rcases List.mem_cons.mp h with h | h
    · subst h
      exact le_max_left _ _
    · exact le_trans (ih h) (le_max_right _ _)

theorem jdepth_le_fields (k : List Nat) (v : JVal) (fs : List (List Nat × JVal))
    (h : (k, v) ∈ fs) : jdepth v ≤ jdepthFields fs := by
  induction fs with
  | nil => cases h
  | cons p ps ih =>
    rcases p with ⟨k', v'⟩
    rcases List.mem_cons.mp h with h2 | h2
    · injection h2 with hk hv
      subst hv
      exact le_max_left _ _
    · exact le_trans (ih h2) (le_max_right _ _)

/-- Round-trip property of a single value: its encoding succeeds, is at
least as long as the value is deep, and decodes (at any position of a larger
buffer, with any fuel at least the depth) to the value's erased image,
consuming exactly the encoding. -/
def RT (v : JVal) : Prop :=
  ∃ enc, dump_any v = .ok enc ∧ jdepth v ≤ enc.length ∧
    ∀ f pre post, jdepth v ≤ f →
      decodeAnyF f (pre ++ (enc ++ post)) pre.length = .ok (erase v, pre.length + enc.length)

theorem rt_list (xs : List JVal) (H : ∀ x ∈ xs, RT x) :
    ∃ enc, dumpList xs = .ok enc ∧ jdepthList xs ≤ enc.length ∧
      ∀ f pre post, jdepthList xs ≤ f →
        decodeLoop (decodeAnyF f (pre ++ (enc ++ post))) xs.length pre.length =
          .ok (eraseList xs, pre.length + enc.length) := by
  induction xs with
  | nil =>
    refine ⟨[], rfl, by simp [jdepthList], ?_⟩
    intro f pre post _
    simp [decodeLoop, eraseList]
  | cons x xs ih =>
    obtain ⟨e1, hd1, hl1, hdec1⟩ := H x (by simp)
    obtain ⟨e2, hd2, hl2, hdec2⟩ := ih (fun y hy => H y (by simp [hy]))
    refine ⟨e1 ++ e2, ?_, ?_, ?_⟩
    · unfold dumpList
      rw [hd1, hd2]
    · have hx : jdepthList (x :: xs) = max (jdepth x) (jdepthList xs) := rfl
      rw [hx]
      simp only [List.length_append, Nat.max_le]
      omega
    · intro f pre post hf
      have hmax : jdepthList (x :: xs) = max (jdepth x) (jdepthList xs) := rfl
      rw [hmax] at hf
      have hfx : jdepth x ≤ f := le_trans (le_max_left _ _) hf
      have hfxs : jdepthList xs ≤ f := le_trans (le_max_right _ _) hf
      have hdata : pre ++ ((e1 ++ e2) ++ post) = pre ++ (e1 ++ (e2 ++ post)) := by simp
      rw [show (x :: xs).length = xs.length + 1 from rfl, hdata]
      have h2 := hdec2 f (pre ++ e1) post hfxs
      rw [show (pre ++ e1) ++ (e2 ++ post) = pre ++ (e1 ++ (e2 ++ post)) from by simp] at h2
      rw [show (pre ++ e1).length = pre.length + e1.length from by simp] at h2
      unfold decodeLoop
      simp only [hdec1 f pre (e2 ++ post) hfx, h2]
      simp [eraseList]
      omega

theorem isUndef_iff (v : JVal) : isUndef v = true ↔ v = .jundef := by
  cases v <;> simp [isUndef]

theorem objInsert_append (acc : List (List Nat × JVal)) (k : List Nat) (v : JVal)
    (h : k ∉ acc.map Prod.fst) : objInsert acc k v = acc ++ [(k, v)] := by
  induction acc with
  | nil => rfl
  | cons p ps ih =>
    rcases p with ⟨k', v'⟩
    simp only [List.map_cons, List.mem_cons] at h
    push_neg at h
    unfold objInsert
    rw [if_neg (fun he => h.1 he.symm)]
    rw [ih h.2]
    simp

theorem rt_fields (fs : List (List Nat × JVal))
    (H : ∀ p ∈ fs, isUndef p.2 = false → RT p.2)
    (hw : wfFields fs = true)
    (hnd : ((definedFields fs).map Prod.fst).Nodup) :
    ∃ enc, dumpFields fs = .ok enc ∧ jdepthFields fs ≤ enc.length + 2 ∧
      ∀ f pre post acc, jdepthFields fs ≤ f →
        (∀ k ∈ acc.map Prod.fst, k ∉ (definedFields fs).map Prod.fst) →
        decodeFieldsLoop (pre ++ (enc ++ post)) (decodeAnyF f (pre ++ (enc ++ post)))
            (definedFields fs).length pre.length acc =
          .ok (acc ++ eraseFields fs, pre.length + enc.length) := by
  induction fs with
  | nil =>
    refine ⟨[], rfl, by simp [jdepthFields], ?_⟩
    intro f pre post acc _ _
    simp [definedFields, decodeFieldsLoop, eraseFields]
  | cons p fs ih =>
    rcases p with ⟨k, v⟩
    simp only [wfFields, Bool.and_eq_true, Bool.or_eq_true] at hw
    obtain ⟨⟨⟨hka, hkl⟩, hvw⟩, hwfs⟩ := hw
    by_cases hv : isUndef v = true
    · have hveq : v = .jundef := (isUndef_iff v).mp hv
      have hdf : definedFields ((k, v) :: fs) = definedFields fs := by
        simp [definedFields, hv]
      have hef : eraseFields ((k, v) :: fs) = eraseFields fs := by
        simp [eraseFields, hv]
      have hdd : dumpFields ((k, v) :: fs) = dumpFields fs := by
        simp [dumpFields, hv]
      obtain ⟨enc, h1, h2, h3⟩ := ih (fun q hq => H q (by simp [hq])) hwfs (by rw [hdf] at hnd; exact hnd)
      refine ⟨enc, by rw [hdd, h1], ?_, ?_⟩
      · have hjd : jdepthFields ((k, v) :: fs) = max (jdepth v) (jdepthFields fs) := rfl
        rw [hjd, hveq]
        simp only [Nat.max_le]
        constructor
        · show jdepth .jundef ≤ enc.length + 2
          simp [jdepth]
        · exact h2
      · intro f pre post acc hf hfresh
        rw [hdf, hef]
        have hjd : jdepthFields ((k, v) :: fs) = max (jdepth v) (jdepthFields fs) := rfl
        rw [hjd] at hf
        rw [hdf] at hfresh
        exact h3 f pre post acc (le_trans (le_max_right _ _) hf) hfresh
    · have hvb : isUndef v = false := by simp_all
      have hwv : wfB v = true := by
        rcases hvw with h | h
        · rw [h] at hvb
          cases hvb
        · exact h
      obtain ⟨ev, hdv, hlv, hdecv⟩ := H (k, v) (by simp) hvb
      dsimp only at hdv hlv hdecv
      have hdf : definedFields ((k, v) :: fs) = (k, v) :: definedFields fs := by
        simp [definedFields, hvb]
      have hnd2 : ((definedFields fs).map Prod.fst).Nodup := by
        rw [hdf] at hnd
        simp only [List.map_cons, List.nodup_cons] at hnd
        exact hnd.2
      obtain ⟨e2, h1, h2, h3⟩ := ih (fun q hq => H q (by simp [hq])) hwfs hnd2
      have hknotin : k ∉ (definedFields fs).map Prod.fst := by
        rw [hdf] at hnd
        simp only [List.map_cons, List.nodup_cons] at hnd
        exact hnd.1
      have hkb : ∀ b ∈ k, b < 256 := by
        intro b hbmem
        have := List.all_eq_true.mp hka b hbmem
        simpa using this
      have hklen : k.length < 9007199254740992 := by simpa using hkl
      have hef : eraseFields ((k, v) :: fs) = (k, erase v) :: eraseFields fs := by
        simp [eraseFields, hvb]
      have hdd : dumpFields ((k, v) :: fs) = .ok (dump_str k ++ ev ++ e2) := by
        simp [dumpFields, hvb, hdv, h1, Except.mapError]
      refine ⟨dump_str k ++ ev ++ e2, hdd, ?_, ?_⟩
      · have hjd : jdepthFields ((k, v) :: fs) = max (jdepth v) (jdepthFields fs) := rfl
        rw [hjd]
        simp only [Nat.max_le, List.length_append]
        constructor
        · omega
        · omega
      · intro f pre post acc hf hfresh
        have hjd : jdepthFields ((k, v) :: fs) = max (jdepth v) (jdepthFields fs) := rfl
        rw [hjd] at hf
        have hfv : jdepth v ≤ f := le_trans (le_max_left _ _) hf
        have hffs : jdepthFields fs ≤ f := le_trans (le_max_right _ _) hf
        rw [hdf, hef]
        have hdata1 : pre ++ (((dump_str k ++ ev ++ e2) ++ post))
            = pre ++ (dump_str k ++ ((ev ++ e2) ++ post)) := by simp
        rw [show ((k, v) :: definedFields fs).length = (definedFields fs).length + 1 from rfl]
        rw [hdata1]
        unfold decodeFieldsLoop
        have hstr := decodeString_dump_str k hkb hklen pre ((ev ++ e2) ++ post)
        have hvdec := hdecv f (pre ++ dump_str k) (e2 ++ post) hfv
        rw [show (pre ++ dump_str k) ++ (ev ++ (e2 ++ post))
            = pre ++ (dump_str k ++ ((ev ++ e2) ++ post)) from by simp] at hvdec
        rw [show (pre ++ dump_str k).length = pre.length + (dump_str k).length from by simp] at hvdec
        simp only [hstr, hvdec]
        have hfr2 : ∀ k' ∈ (acc ++ [(k, erase v)]).map Prod.fst,
            k' ∉ (definedFields fs).map Prod.fst := by
          intro k' hk'
          simp only [List.map_append, List.mem_append, List.map_cons, List.map_nil,
            List.mem_cons, List.not_mem_nil, or_false] at hk'
          rcases hk' with hk' | hk'
          · intro hcon
            exact (hfresh k' hk') (by rw [hdf]; simp [hcon])
          · subst hk'
            exact hknotin
        have hins : objInsert acc k (erase v) = acc ++ [(k, erase v)] := by
          apply objInsert_append
          intro hmem
          exact (hfresh k hmem) (by rw [hdf]; simp)
        rw [hins]
        have hrest := h3 f (pre ++ dump_str k ++ ev) post (acc ++ [(k, erase v)]) hffs hfr2
        rw [show (pre ++ dump_str k ++ ev) ++ (e2 ++ post)
            = pre ++ (dump_str k ++ ((ev ++ e2) ++ post)) from by simp] at hrest
        rw [show (pre ++ dump_str k ++ ev).length
            = pre.length + (dump_str k).length + ev.length from by
          simp only [List.length_append]] at hrest
        rw [hrest]
        simp only [Except.ok.injEq, Prod.mk.injEq, List.length_append]
        constructor
        · simp
        · omega

theorem sizeOf_pos_jval (v : JVal) : 0 < sizeOf v := by
  cases v <;> simp

theorem wfList_mem (xs : List JVal) (h : wfList xs = true) : ∀ x ∈ xs, wfB x = true := by
  induction xs with
  | nil =>
    intro x hx
    cases hx
  | cons y ys ih =>
    simp only [wfList, Bool.and_eq_true] at h
    intro x hx
    rcases List.mem_cons.mp hx with hx | hx
    · subst hx
      exact h.1
    · exact ih h.2 x hx

theorem wfFields_mem (fs : List (List Nat × JVal)) (h : wfFields fs = true) :
    ∀ p ∈ fs, isUndef p.2 = true ∨ wfB p.2 = true := by
  induction fs with
  | nil =>
    intro p hp
    cases hp
  | cons q qs ih =>
    rcases q with ⟨k, v⟩
    simp only [wfFields, Bool.and_eq_true, Bool.or_eq_true] at h
    intro p hp
    rcases List.mem_cons.mp hp with hp | hp
    · subst hp
      exact h.1.2
    · exact ih h.2 p hp

theorem sizeOf_mem_arr (x : JVal) (xs : List JVal) (h : x ∈ xs) :
    sizeOf x < sizeOf (JVal.jarr xs) := by
  have h1 := List.sizeOf_lt_of_mem h
  have h2 : sizeOf (JVal.jarr xs) = 1 + sizeOf xs := by simp
  omega

theorem sizeOf_mem_obj (p : List Nat × JVal) (fs : List (List Nat × JVal)) (h : p ∈ fs) :
    sizeOf p.2 < sizeOf (JVal.jobj fs) := by
  have h1 := List.sizeOf_lt_of_mem h
  rcases p with ⟨k, v⟩
  have h2 : sizeOf ((k, v) : List Nat × JVal) = 1 + sizeOf k + sizeOf v := by simp
  have h3 : sizeOf (JVal.jobj fs) = 1 + sizeOf fs := by simp
  simp only []
  omega

theorem rt_aux : ∀ (n : Nat) (v : JVal), sizeOf v ≤ n → wfB v = true → RT v := by
  intro n
  induction n with
  | zero =>
    intro v hs _
    have hp := sizeOf_pos_jval v
    omega
  | succ n ih =>
    intro v hs hw
    cases v with
    | jint m =>
      simp only [wfB, decide_eq_true_eq] at hw
      refine ⟨dump_int m, rfl, ?_, ?_⟩
      · have h2 := two_le_dump_int_length m
        show jdepth (.jint m) ≤ (dump_int m).length
        simp [jdepth]
        omega
      · intro f pre post hf
        have hf1 : 1 ≤ f := le_trans (by simp [jdepth]) hf
        obtain ⟨f', rfl⟩ : ∃ f', f = f' + 1 := ⟨f - 1, by omega⟩
        rw [decodeAnyF_dump_int m (by omega) (by omega) f' pre post]
        rw [int64ToNum_small m (by omega)]
        rfl
    | jbool b =>
      refine ⟨[if b then 8 else 9], rfl, by cases b <;> simp [jdepth], ?_⟩
      intro f pre post hf
      have hf1 : 1 ≤ f := le_trans (by simp [jdepth]) hf
      obtain ⟨f', rfl⟩ : ∃ f', f = f' + 1 := ⟨f - 1, by omega⟩
      have hno : ¬ ((pre ++ ([if b then 8 else 9] ++ post)).length ≤ pre.length) := by
        simp only [List.length_append, List.length_cons]
        omega
      have hbyte : byteAt (pre ++ ([if b then 8 else 9] ++ post)) pre.length
          = (if b then 8 else 9) := by
        have hb2 := byteAt_append pre ([if b then 8 else 9] ++ post) 0
        simp only [Nat.add_zero] at hb2
        rw [hb2]
        cases b <;> rfl
      unfold decodeAnyF
      rw [if_neg hno]
      simp only [hbyte]
      cases b <;> norm_num [asSigned] <;> try rfl
    | jnull =>
      refine ⟨[10], rfl, by simp [jdepth], ?_⟩
      intro f pre post hf
      have hf1 : 1 ≤ f := le_trans (by simp [jdepth]) hf
      obtain ⟨f', rfl⟩ : ∃ f', f = f' + 1 := ⟨f - 1, by omega⟩
      have hno : ¬ ((pre ++ ([10] ++ post)).length ≤ pre.length) := by
        simp only [List.length_append, List.length_cons]
        omega
      have hbyte : byteAt (pre ++ ([10] ++ post)) pre.length = 10 := by
        have hb2 := byteAt_append pre ([10] ++ post) 0
        simp only [Nat.add_zero] at hb2
        rw [hb2]
        rfl
      unfold decodeAnyF
      rw [if_neg hno]
      simp only [hbyte]
      norm_num [asSigned]
      rfl
    | jundef => simp [wfB] at hw
    | jreal bits =>
      simp only [wfB, decide_eq_true_eq] at hw
      refine ⟨7 :: natLE bits 8, rfl, by simp [jdepth, length_natLE], ?_⟩
      intro f pre post hf
      have hf1 : 1 ≤ f := le_trans (by simp [jdepth]) hf
      obtain ⟨f', rfl⟩ : ∃ f', f = f' + 1 := ⟨f - 1, by omega⟩
      have hno : ¬ ((pre ++ ((7 :: natLE bits 8) ++ post)).length ≤ pre.length) := by
        simp only [List.length_append, List.length_cons]
        omega
      have hbyte : byteAt (pre ++ ((7 :: natLE bits 8) ++ post)) pre.length = 7 := by
        have hb2 := byteAt_append pre ((7 :: natLE bits 8) ++ post) 0
        simp only [Nat.add_zero] at hb2
        rw [hb2]
        rfl
      have hread : readBytes (pre ++ ((7 :: natLE bits 8) ++ post)) (pre.length + 1) 8
          = some (natLE bits 8) := by
        rw [show pre ++ ((7 :: natLE bits 8) ++ post)
            = (pre ++ [7]) ++ (natLE bits 8 ++ post) from by simp]
        have hr := readBytes_append (pre ++ [7]) (natLE bits 8) post 8
          (le_of_eq (length_natLE bits 8).symm)
        simp only [List.length_append, List.length_cons, List.length_nil] at hr
        rw [hr]
        rw [List.take_of_length_le (le_of_eq (length_natLE bits 8))]
        rw [map_mod_256 _ (natLE_all_lt bits 8)]
      unfold decodeAnyF
      rw [if_neg hno]
      simp only [hbyte]
      norm_num [asSigned]
      simp only [List.cons_append, List.append_assoc] at hread
      rw [hread]
      simp only [natOfLE_natLE]
      rw [Nat.mod_eq_of_lt (by norm_num; omega)]
      simp only [Except.ok.injEq, Prod.mk.injEq, List.length_append, List.length_cons]
      constructor
      · rfl
      · rw [length_natLE]
    | jstr s =>
      simp only [wfB, Bool.and_eq_true, decide_eq_true_eq, List.all_eq_true] at hw
      obtain ⟨hba, hl⟩ := hw
      have hb : ∀ b ∈ s, b < 256 := by
        intro b hbm
        have := hba b hbm
        simpa using this
      refine ⟨dump_str s, rfl, ?_, ?_⟩
      · have h2 := two_le_dump_int_length ((s.length : Nat) : Int)
        show jdepth (.jstr s) ≤ (dump_str s).length
        simp [jdepth, dump_str]
      · intro f pre post hf
        have hf1 : 1 ≤ f := le_trans (by simp [jdepth]) hf
        obtain ⟨f', rfl⟩ : ∃ f', f = f' + 1 := ⟨f - 1, by omega⟩
        have h2 := two_le_dump_int_length ((s.length : Nat) : Int)
        have hno : ¬ ((pre ++ (dump_str s ++ post)).length ≤ pre.length) := by
          simp only [List.length_append, dump_str, List.length_cons]
          omega
        have hbyte : byteAt (pre ++ (dump_str s ++ post)) pre.length = 2 := by
          have hb2 := byteAt_append pre (dump_str s ++ post) 0
          simp only [Nat.add_zero] at hb2
          rw [hb2]
          rfl
        unfold decodeAnyF
        rw [if_neg hno]
        simp only [hbyte]
        norm_num [asSigned]
        rw [decodeString_dump_str s hb hl pre post]
        rfl
    | jint64 m =>
      simp only [wfB, Bool.and_eq_true, decide_eq_true_eq] at hw
      obtain ⟨⟨hm1, hm2⟩, hm3⟩ := hw
      have hdi : dump_int m = dump_int64 m := by
        unfold dump_int
        rw [if_neg (by omega), if_neg (by omega), if_neg (by omega)]
      refine ⟨dump_int64 m, rfl, by simp [jdepth, dump_int64, length_intLE], ?_⟩
      intro f pre post hf
      have hf1 : 1 ≤ f := le_trans (by simp [jdepth]) hf
      obtain ⟨f', rfl⟩ : ∃ f', f = f' + 1 := ⟨f - 1, by omega⟩
      rw [← hdi]
      rw [decodeAnyF_dump_int m (by omega) (by omega) f' pre post]
      rw [hdi]
      rw [show int64ToNum m = .big m from by unfold int64ToNum; rw [if_neg (by omega)]]
      rfl
    | jarr xs =>
      simp only [wfB, Bool.and_eq_true, decide_eq_true_eq] at hw
      obtain ⟨hlen53, hwl⟩ := hw
      have Hmem : ∀ x ∈ xs, RT x := by
        intro x hx
        apply ih x ?_ (wfList_mem xs hwl x hx)
        have h1 := sizeOf_mem_arr x xs hx
        omega
      obtain ⟨body, hd, hlb, hdec⟩ := rt_list xs Hmem
      refine ⟨0 :: (dump_int (xs.length : Int) ++ body), ?_, ?_, ?_⟩
      · show dump_any (.jarr xs) = _
        simp [dump_any, hd]
      · have h2 := two_le_dump_int_length ((xs.length : Nat) : Int)
        show jdepth (.jarr xs) ≤ _
        simp only [jdepth, List.length_cons, List.length_append]
        omega
      · intro f pre post hf
        have hf1 : 1 ≤ f := by
          have : jdepth (.jarr xs) = jdepthList xs + 1 := rfl
          omega
        obtain ⟨f', rfl⟩ : ∃ f', f = f' + 1 := ⟨f - 1, by omega⟩
        have hf' : jdepthList xs ≤ f' := by
          have hje : jdepth (.jarr xs) = jdepthList xs + 1 := rfl
          rw [hje] at hf
          omega
        have h2 := two_le_dump_int_length ((xs.length : Nat) : Int)
        have hno : ¬ ((pre ++ ((0 :: (dump_int (xs.length : Int) ++ body)) ++ post)).length
            ≤ pre.length) := by
          simp only [List.length_append, List.length_cons]
          omega
        have hbyte : byteAt (pre ++ ((0 :: (dump_int (xs.length : Int) ++ body)) ++ post))
            pre.length = 0 := by
          have hb2 := byteAt_append pre ((0 :: (dump_int (xs.length : Int) ++ body)) ++ post) 0
          simp only [Nat.add_zero] at hb2
          rw [hb2]
          rfl
        have hint : decodeIntReq (pre ++ ((0 :: (dump_int (xs.length : Int) ++ body)) ++ post))
            (pre.length + 1)
            = .ok (.num (xs.length : Int), (pre.length + 1) + (dump_int (xs.length : Int)).length) := by
          rw [show pre ++ ((0 :: (dump_int (xs.length : Int) ++ body)) ++ post)
              = (pre ++ [0]) ++ (dump_int (xs.length : Int) ++ (body ++ post)) from by simp]
          have hcore := decodeIntReq_dump_int ((xs.length : Nat) : Int) (by omega) (by omega)
            (pre ++ [0]) (body ++ post)
          rw [int64ToNum_small ((xs.length : Nat) : Int) (by simp; omega)] at hcore
          simp only [List.length_append, List.length_cons, List.length_nil] at hcore
          rw [hcore]
        have hloop := hdec f' (pre ++ [0] ++ dump_int (xs.length : Int)) post hf'
        have hsh1 : (pre ++ [0] ++ dump_int (xs.length : Int)) ++ (body ++ post)
            = pre ++ ((0 :: (dump_int (xs.length : Int) ++ body)) ++ post) := by simp
        have hsh2 : (pre ++ [0] ++ dump_int (xs.length : Int)).length
            = (pre.length + 1) + (dump_int (xs.length : Int)).length := by
          simp only [List.length_append, List.length_cons, List.length_nil]
        rw [hsh1, hsh2] at hloop
        unfold decodeAnyF
        rw [if_neg hno]
        simp only [hbyte]
        norm_num [asSigned]
        unfold decodeArray expectCode
        simp only [List.cons_append, List.append_assoc] at hno hbyte hint hloop
        rw [if_neg hno]
        simp only [hbyte]
        norm_num [asSigned]
        rw [hint]
        simp only [ivalToInt]
        rw [show ((xs.length : Nat) : Int).toNat = xs.length from by omega]
        rw [hloop]
        simp only [Except.map, Except.ok.injEq, Prod.mk.injEq]
        exact ⟨rfl, by omega⟩
    | jobj fs =>
      simp only [wfB, Bool.and_eq_true, decide_eq_true_eq] at hw
      obtain ⟨⟨hlen53, hnd⟩, hwf⟩ := hw
      have Hmem : ∀ p ∈ fs, isUndef p.2 = false → RT p.2 := by
        intro p hp hundef
        rcases wfFields_mem fs hwf p hp with h | h
        · rw [h] at hundef
          cases hundef
        · apply ih p.2 ?_ h
          have h1 := sizeOf_mem_obj p fs hp
          omega
      have hndd : ((definedFields fs).map Prod.fst).Nodup := by
        have hsub : List.Sublist ((definedFields fs).map Prod.fst) (fs.map Prod.fst) :=
          List.Sublist.map Prod.fst (List.filter_sublist fs)
        exact hnd.sublist hsub
      obtain ⟨body, hd, hlb, hdec⟩ := rt_fields fs Hmem hwf hndd
      have hdl : (definedFields fs).length ≤ fs.length := List.length_filter_le _ _
      refine ⟨1 :: (dump_int ((definedFields fs).length : Int) ++ body), ?_, ?_, ?_⟩
      · show dump_any (.jobj fs) = _
        simp [dump_any, hd]
      · have h2 := two_le_dump_int_length (((definedFields fs).length : Nat) : Int)
        show jdepth (.jobj fs) ≤ _
        have hje : jdepth (.jobj fs) = jdepthFields fs + 1 := rfl
        rw [hje]
        simp only [List.length_cons, List.length_append]
        omega
      · intro f pre post hf
        have hje : jdepth (.jobj fs) = jdepthFields fs + 1 := rfl
        rw [hje] at hf
        obtain ⟨f', rfl⟩ : ∃ f', f = f' + 1 := ⟨f - 1, by omega⟩
        have hf' : jdepthFields fs ≤ f' := by omega
        have h2 := two_le_dump_int_length (((definedFields fs).length : Nat) : Int)
        have hno : ¬ ((pre ++ ((1 :: (dump_int ((definedFields fs).length : Int) ++ body)) ++ post)).length
            ≤ pre.length) := by
          simp only [List.length_append, List.length_cons]
          omega
        have hbyte : byteAt (pre ++ ((1 :: (dump_int ((definedFields fs).length : Int) ++ body)) ++ post))
            pre.length = 1 := by
          have hb2 := byteAt_append pre ((1 :: (dump_int ((definedFields fs).length : Int) ++ body)) ++ post) 0
          simp only [Nat.add_zero] at hb2
          rw [hb2]
          rfl
        have hint : decodeIntReq (pre ++ ((1 :: (dump_int ((definedFields fs).length : Int) ++ body)) ++ post))
            (pre.length + 1)
            = .ok (.num ((definedFields fs).length : Int),
                (pre.length + 1) + (dump_int ((definedFields fs).length : Int)).length) := by
          rw [show pre ++ ((1 :: (dump_int ((definedFields fs).length : Int) ++ body)) ++ post)
              = (pre ++ [1]) ++ (dump_int ((definedFields fs).length : Int) ++ (body ++ post)) from by simp]
          have hcore := decodeIntReq_dump_int (((definedFields fs).length : Nat) : Int) (by omega) (by omega)
            (pre ++ [1]) (body ++ post)
          rw [int64ToNum_small (((definedFields fs).length : Nat) : Int) (by simp; omega)] at hcore
          simp only [List.length_append, List.length_cons, List.length_nil] at hcore
          rw [hcore]
        have hloop := hdec f' (pre ++ [1] ++ dump_int ((definedFields fs).length : Int)) post [] hf'
          (by intro k hk; simp at hk)
        have hsh1 : (pre ++ [1] ++ dump_int ((definedFields fs).length : Int)) ++ (body ++ post)
            = pre ++ ((1 :: (dump_int ((definedFields fs).length : Int) ++ body)) ++ post) := by simp
        have hsh2 : (pre ++ [1] ++ dump_int ((definedFields fs).length : Int)).length
            = (pre.length + 1) + (dump_int ((definedFields fs).length : Int)).length := by
          simp only [List.length_append, List.length_cons, List.length_nil]
        rw [hsh1, hsh2] at hloop
        simp only [List.nil_append] at hloop
        unfold decodeAnyF
        rw [if_neg hno]
        simp only [hbyte]
        norm_num [asSigned]
        unfold decodeObject expectCode
        simp only [List.cons_append, List.append_assoc] at hno hbyte hint hloop
        rw [if_neg hno]
        simp only [hbyte]
        norm_num [asSigned]
        rw [hint]
        simp only [ivalToInt]
        rw [show (((definedFields fs).length : Nat) : Int).toNat = (definedFields fs).length from by omega]
        rw [hloop]
        simp only [Except.map, Except.ok.injEq, Prod.mk.injEq]
        exact ⟨rfl, by omega⟩

theorem rt_main (v : JVal) (hw : wfB v = true) : RT v :=
  rt_aux (sizeOf v) v (le_refl _) hw

theorem decodeInt_relaxed_core (pre post : List Nat) (t size : Nat) (v : Int)
    (htag : intTagSize (asSigned 1 t) = some size) (ht : t < 256)
    (h1 : -(((256 ^ size : Nat) : Int)) ≤ 2 * v) (h2 : 2 * v < ((256 ^ size : Nat) : Int)) :
    decodeInt (pre ++ (t :: (intLE v size ++ post))) pre.length true =
      .ok (some ((if size = 8 then int64ToNum v else .num v), pre.length + (1 + size))) := by
  have hsz : size = 1 ∨ size = 2 ∨ size = 4 ∨ size = 8 := by
    unfold intTagSize at htag
    split_ifs at htag <;> simp_all
  have hlen : (pre ++ (t :: (intLE v size ++ post))).length
      = pre.length + (1 + (size + post.length)) := by
    simp [length_intLE]
    omega
  have hbyte : byteAt (pre ++ (t :: (intLE v size ++ post))) pre.length = t := by
    have hb := byteAt_append pre (t :: (intLE v size ++ post)) 0
    simp only [Nat.add_zero] at hb
    rw [hb]
    simp [byteAt, Nat.mod_eq_of_lt ht]
  have hdata : pre ++ (t :: (intLE v size ++ post))
      = (pre ++ [t]) ++ (intLE v size ++ post) := by simp
  have hread : readBytes (pre ++ (t :: (intLE v size ++ post))) (pre.length + 1) size
      = some (intLE v size) := by
    rw [hdata]
    have hr := readBytes_append (pre ++ [t]) (intLE v size) post size
      (le_of_eq (length_intLE v size).symm)
    simp only [List.length_append, List.length_cons, List.length_nil] at hr
    rw [hr]
    rw [List.take_of_length_le (le_of_eq (length_intLE v size))]
    rw [map_mod_256 _ (intLE_all_lt v size)]
  have hno : ¬ ((pre ++ (t :: (intLE v size ++ post))).length ≤ pre.length) := by
    rw [hlen]
    omega
  have hno2 : ¬ ((pre ++ (t :: (intLE v size ++ post))).length < pre.length + 1 + size) := by
    rw [hlen]
    omega
  have hsigned : asSigned size (natOfLE (intLE v size)) = v := asSigned_intLE size v h1 h2
  unfold decodeInt
  rw [if_neg (by
    intro hcon
    exact hno hcon.2)]
  rw [if_neg hno]
  simp only [hbyte, htag]
  rw [if_neg (by
    intro hcon
    exact hno2 hcon.2)]
  unfold readIntSized
  rw [hread]
  rcases hsz with h | h | h | h <;> subst h <;> simp [hsigned, Except.map]

theorem load_after_dump (v : JVal) (full : List Nat) (hw : wfB v = true)
    (hd : dumpToBuffer v = .ok full) (extra : List Nat) :
    loadFromBuffer (full ++ extra) =
      if extra.isEmpty then .ok (erase v) else .error .excessData := by
  obtain ⟨payload, hdp, hlp, hdec⟩ := rt_main v hw
  have hflen : ((0 :: 1 :: 5 :: (intLE 0 4 ++ payload)).length : Int) - 7
      = (payload.length : Int) := by
    simp [show intLE 0 4 = [0, 0, 0, 0] from rfl]
    omega
  have hbound : (payload.length : Int) ≤ 2147483647 := by
    by_contra hc
    unfold dumpToBuffer at hd
    rw [hdp] at hd
    dsimp only at hd
    rw [hflen] at hd
    rw [if_neg hc] at hd
    cases hd
  have hfull : full = 0 :: 1 :: 5 :: (intLE (payload.length : Int) 4 ++ payload) := by
    unfold dumpToBuffer at hd
    rw [hdp] at hd
    dsimp only at hd
    rw [hflen] at hd
    rw [if_pos hbound] at hd
    have hX : ((0 :: 1 :: 5 :: (intLE 0 4 ++ payload)).take 3
        ++ (intLE (payload.length : Int) 4 ++ (0 :: 1 :: 5 :: (intLE 0 4 ++ payload)).drop 7))
        = 0 :: 1 :: 5 :: (intLE (payload.length : Int) 4 ++ payload) := by
      rw [show intLE 0 4 = [0, 0, 0, 0] from rfl]
      rfl
    rw [hX] at hd
    injection hd with h
    exact h.symm
  subst hfull
  have hdatan : (0 :: 1 :: 5 :: (intLE (payload.length : Int) 4 ++ payload)) ++ extra
      = [0, 1] ++ ((5 : Nat) :: (intLE (payload.length : Int) 4 ++ (payload ++ extra))) := by
    simp
  have hlen : ((0 :: 1 :: 5 :: (intLE (payload.length : Int) 4 ++ payload)) ++ extra).length
      = 7 + (payload.length + extra.length) := by
    simp [length_intLE]
    omega
  have hrel : decodeInt ((0 :: 1 :: 5 :: (intLE (payload.length : Int) 4 ++ payload)) ++ extra) 2 true
      = .ok (some (.num (payload.length : Int), 7)) := by
    rw [hdatan]
    have hcore := decodeInt_relaxed_core [0, 1] (payload ++ extra) 5 4 (payload.length : Int)
      (by decide) (by decide) (by norm_num; omega) (by norm_num; omega)
    simp only [List.length_cons, List.length_nil] at hcore
    rw [hcore]
    norm_num
  have hdecoded := hdec (payload.length + extra.length + 1)
    ([0, 1, 5] ++ intLE (payload.length : Int) 4) extra (by omega)
  have hshp1 : ([0, 1, 5] ++ intLE (payload.length : Int) 4) ++ (payload ++ extra)
      = (0 :: 1 :: 5 :: (intLE (payload.length : Int) 4 ++ payload)) ++ extra := by simp
  have hshp2 : ([0, 1, 5] ++ intLE (payload.length : Int) 4).length = 7 := by
    simp [length_intLE]
  rw [hshp1, hshp2] at hdecoded
  unfold loadFromBuffer bbProcessSync
  simp only [if_true]
  rw [if_neg (by
    show ¬ (bbAvail _ < 2)
    unfold bbAvail
    simp only [hlen]
    omega)]
  rw [if_neg (by
    show ¬ (asSigned 1 (byteAt _ 0) ≠ 0)
    rw [show byteAt ((0 :: 1 :: 5 :: (intLE (payload.length : Int) 4 ++ payload)) ++ extra) 0
        = 0 from rfl]
    decide)]
  rw [if_neg (by
    show ¬ (asSigned 1 (byteAt _ (0 + 1)) ≠ 1)
    rw [show byteAt ((0 :: 1 :: 5 :: (intLE (payload.length : Int) 4 ++ payload)) ++ extra) (0 + 1)
        = 1 from rfl]
    decide)]
  rw [show (0 : Nat) + 2 = 2 from rfl]
  rw [hrel]
  unfold bbFill
  simp only [ivalToInt, Option.getD, eq_self_iff_true, if_true]
  rw [if_neg (by
    show ¬ ((bbAvail _ : Int) < (payload.length : Int))
    unfold bbAvail
    simp only [hlen]
    omega)]
  rw [show bbAvail (BunserBuf.mk
      ((0 :: 1 :: 5 :: (intLE (payload.length : Int) 4 ++ payload)) ++ extra) 7 1
      (some (payload.length : Int))) = payload.length + extra.length from by
    unfold bbAvail
    simp only [hlen]
    omega]
  rw [hdecoded]
  simp only []
  rw [show bbAvail (BunserBuf.mk
      ((0 :: 1 :: 5 :: (intLE (payload.length : Int) 4 ++ payload)) ++ extra)
      (7 + payload.length) 1 (some (payload.length : Int))) = extra.length from by
    unfold bbAvail
    simp only [hlen]
    omega]
  cases extra with
  | nil => simp
  | cons e es => simp

/-- Whether an encode attempt succeeded (used to state concrete facts about
the seed set in a decidable form). -/
def isOkE : Except EncErr (List Nat) → Bool
  | .ok _ => true
  | .error _ => false

theorem isOkE_exists (x : Except EncErr (List Nat)) (h : isOkE x = true) :
    ∃ enc, x = .ok enc := by
  cases x with
  | error e => cases h
  | ok enc => exact ⟨enc, rfl⟩

/-- The specification's seed round-trip set (§8): integers across all width
boundaries, a string, the double 1.5 (bits 0x3FF8000000000000), booleans,
null, Int64(0x0123456789abcdef), arrays and nested objects. -/
def seedRoundTripBase : List JVal :=
  [.jint 1, .jstr (strBytes "hello"), .jreal 4609434218613702656, .jbool false, .jbool true,
   .jint64 81985529216486895, .jint 127, .jint 128, .jint 129, .jint 32767, .jint 32768,
   .jint 32769, .jint 65534, .jint 65536, .jint 65537, .jint 2147483647, .jint 2147483648,
   .jint 2147483649, .jnull, .jarr [.jint 1, .jint 2, .jint 3],
   .jobj [(strBytes "foo", .jstr (strBytes "bar"))],
   .jobj [(strBytes "nested", .jobj [(strBytes "struct", .jstr (strBytes "hello")),
     (strBytes "list", .jarr [.jbool true, .jbool false, .jint 1, .jstr (strBytes "string")])])]]

/-- The seed set including the full array of all the above as a single value. -/
def seedRoundTripSet : List JVal :=
  seedRoundTripBase ++ [.jarr seedRoundTripBase]

set_option maxRecDepth 10000 in
/-- C1: for every value v in the spec's seed round-trip set, decoding the
bytes produced by the encoder (`dumpToBuffer` then `loadFromBuffer`) yields a
value deeply equal to v; object properties whose value is the `undefined`
marker are erased, so decode(encode({x: undefined})) = {}. -/
theorem seed_roundtrip :
    (∀ v ∈ seedRoundTripSet, ∃ enc, dumpToBuffer v = .ok enc ∧
      loadFromBuffer enc = .ok (erase v)) ∧
    (∃ enc, dumpToBuffer (.jobj [(strBytes "x", .jundef)]) = .ok enc ∧
      loadFromBuffer enc = .ok (.jobj [])) := by
  have hgen : ∀ v : JVal, wfB v = true → ∀ enc, dumpToBuffer v = .ok enc →
      loadFromBuffer enc = .ok (erase v) := by
    intro v hw enc hd
    have h := load_after_dump v enc hw hd []
    simpa using h
  constructor
  · intro v hv
    have hall : ∀ w ∈ seedRoundTripSet, wfB w = true ∧ isOkE (dumpToBuffer w) = true := by
      decide
    obtain ⟨hw, hok⟩ := hall v hv
    obtain ⟨enc, henc⟩ := isOkE_exists _ hok
    exact ⟨enc, henc, hgen v hw enc henc⟩
  · refine ⟨_, rfl, ?_⟩
    exact hgen (.jobj [(strBytes "x", .jundef)]) (by decide) _ rfl

/-- Closed witness for the seed round-trip theorem at the value 1. -/
theorem seed_roundtrip_witness :
    ∃ enc, dumpToBuffer (.jint 1) = .ok enc ∧
      loadFromBuffer enc = .ok (erase (.jint 1)) :=
  seed_roundtrip.1 (.jint 1) (by simp [seedRoundTripSet, seedRoundTripBase])

/-- C8: `loadFromBuffer` succeeds returning the decoded value when the input
is exactly one complete PDU, and throws the excess-data error when any bytes
(here: any nonempty suffix) follow a valid PDU. -/
theorem loadFromBuffer_excess (v : JVal) (full extra : List Nat) (hw : wfB v = true)
    (hd : dumpToBuffer v = .ok full) (hne : extra ≠ []) :
    loadFromBuffer (full ++ extra) = .error .excessData ∧
    loadFromBuffer full = .ok (erase v) := by
  constructor
  · have h := load_after_dump v full hw hd extra
    rw [if_neg (by simp [List.isEmpty_iff, hne])] at h
    exact h
  · have h := load_after_dump v full hw hd []
    simpa using h

/-- Closed witness for the excess-data theorem: the canonical PDU for 1
followed by one extra byte. -/
theorem loadFromBuffer_excess_witness :
    loadFromBuffer ([0, 1, 5, 2, 0, 0, 0, 3, 1] ++ [0]) = .error .excessData ∧
    loadFromBuffer [0, 1, 5, 2, 0, 0, 0, 3, 1] = .ok (erase (.jint 1)) :=
  loadFromBuffer_excess (.jint 1) [0, 1, 5, 2, 0, 0, 0, 3, 1] [0] (by decide) (by rfl)
    (by decide)

/-- C6: in ST_NEED_PDU, when at least two bytes are readable and they are the
valid header `00 01` but too few bytes remain for the length integer's tag
or its full payload, `process` returns without net input consumption: the
read offset equals its value before the call (the two header reads are
rewound) and the state stays ST_NEED_PDU. -/
theorem process_rewinds_on_short_length (b : BunserBuf)
    (hstate : b.state = 0) (h2 : 2 ≤ bbAvail b)
    (hb0 : byteAt b.data b.readOffset = 0)
    (hb1 : byteAt b.data (b.readOffset + 1) = 1)
    (hshort : bbAvail b = 2 ∨
      (∃ sz, intTagSize (asSigned 1 (byteAt b.data (b.readOffset + 2))) = some sz ∧
        bbAvail b < 3 + sz)) :
    bbProcessSync b = .ok ({ b with pduLen := none }, none) ∧
    ({ b with pduLen := none } : BunserBuf).readOffset = b.readOffset ∧
    ({ b with pduLen := none } : BunserBuf).state = 0 := by
  refine ⟨?_, rfl, hstate⟩
  have hdec : decodeInt b.data (b.readOffset + 2) true = .ok none := by
    unfold decodeInt
    rcases hshort with hav | ⟨sz, htag, hlt⟩
    · rw [if_pos ⟨rfl, by unfold bbAvail at hav h2; omega⟩]
    · have hgt : ¬ (b.data.length ≤ b.readOffset + 2) := by
        intro hcon
        have hz : byteAt b.data (b.readOffset + 2) = 0 := by
          unfold byteAt
          rw [List.getD_eq_default _ _ hcon]
        rw [hz] at htag
        rw [show asSigned 1 (0 : Nat) = 0 from by decide] at htag
        cases htag
      rw [if_neg (fun hc => hgt hc.2), if_neg hgt]
      simp only [htag]
      rw [if_pos ⟨by simp, by unfold bbAvail at hlt; omega⟩]
  unfold bbProcessSync
  rw [if_pos hstate]
  rw [if_neg (by omega)]
  rw [if_neg (by
    rw [hb0]
    decide)]
  rw [if_neg (by
    rw [hb1]
    decide)]
  rw [hdec]

/-- Closed witness for the rewind theorem: header plus an INT32 tag with only
one of its four payload bytes available. -/
theorem process_rewind_witness :
    bbProcessSync (BunserBuf.mk [0, 1, 5, 0] 0 0 none)
      = .ok (BunserBuf.mk [0, 1, 5, 0] 0 0 none, none) :=
  (process_rewinds_on_short_length (BunserBuf.mk [0, 1, 5, 0] 0 0 none) rfl (by decide)
    rfl rfl (Or.inr ⟨4, by decide, by decide⟩)).1

/-- A queued command (src/client.ts `Command`): the request value and an
identifier standing for the completion callback's identity. -/
structure Command where
  cmd : JVal
  cbId : Nat

/-- Observable effects of the client's state transitions: completion
callbacks, emitted events, socket traffic and console output. -/
inductive ClientEffect where
  | callbackErr (cbId : Nat) (msg : String)
  | callbackOk (cbId : Nat) (resp : JVal)
  | callbackRespErr (cbId : Nat) (errVal : JVal) (resp : JVal)
  | emitNamed (name : List Nat) (obj : JVal)
  | emitEnd
  | emitError (msg : String)
  | consoleError (msg : String)
  | sockWrite (bytes : Except EncErr (List Nat))
  | sockClose

/-- The mutable fields of `Client` the claims are about: the FIFO command
queue, the in-flight slot, and whether socket and decoder are installed. -/
structure ClientState where
  commands : List Command
  currentCommand : Option Command
  socket : Bool
  bunser : Bool

/-- `Client.sendNextCommand`: do nothing while a command is pending response;
otherwise shift the queue (nothing further when it was empty) and write the
popped command's BSER encoding to the socket. -/
def sendNextCommand (s : ClientState) : ClientState × List ClientEffect :=
  match s.currentCommand with
  | some _ => (s, [])
  | none =>
    match s.commands with
    | [] => (s, [])
    | c :: rest =>
      ({ s with currentCommand := some c, commands := rest },
       [ClientEffect.sockWrite (dumpToBuffer c.cmd)])

/-- `Client.cancelCommands`: steal the whole queue before any callback can
run (so completions scheduling new commands land in the fresh queue),
prepend the in-flight command, then fail every stolen entry's callback with
an error carrying `why`. -/
def cancelCommands (why : String) (s : ClientState) : ClientState × List ClientEffect :=
  let stolen := s.currentCommand.toList ++ s.commands
  ({ s with commands := [], currentCommand := none },
   stolen.map (fun c => ClientEffect.callbackErr c.cbId why))

/-- The `finally` block of the read loop (src/client.ts `makeSock`): null the
socket and the decoder, cancel all remaining commands with the
connection-closed message, then emit one `end` event. -/
def connTeardown (s : ClientState) : ClientState × List ClientEffect :=
  let s1 : ClientState := { s with socket := false, bunser := false }
  let c := cancelCommands ("The watchman connection was closed") s1
  (c.1, c.2 ++ [ClientEffect.emitEnd])

/-- `Client.end`: cancel all pending commands with the client-ended message,
close the socket if one is present, drop the decoder.  (The socket close
then terminates the read loop, whose `finally` block is `connTeardown`.) -/
def clientEnd (s : ClientState) : ClientState × List ClientEffect :=
  let c := cancelCommands ("The client was ended") s
  ({ c.1 with socket := false, bunser := false },
   c.2 ++ (if s.socket then [ClientEffect.sockClose] else []))

/-- The unilateral message tags, in the order the handler scans them. -/
def unilateralTags : List (List Nat) :=
  [strBytes "subscription", strBytes "log"]

/-- The `tag in obj` test of the value handler.  Decoded protocol values are
objects (JS `in` on a non-object throws, which the protocol never
produces); non-objects report false here. -/
def jvalHasKey : JVal → List Nat → Bool
  | .jobj fs, k => fs.any (fun p => decide (p.1 = k))
  | _, _ => false

/-- JS property read `obj[k]` on a decoded object (first matching key; the
decoder's insert keeps keys unique). -/
def objGet : JVal → List Nat → Option JVal
  | .jobj fs, k => (fs.find? (fun p => decide (p.1 = k))).map (fun p => p.2)
  | _, _ => none

/-- The unilateral-detection loop of the value handler: scan the tags in
order, remembering the last one present in the object. -/
def unilateralOf (obj : JVal) : Option (List Nat) :=
  unilateralTags.foldl (fun acc tag => if jvalHasKey obj tag then some tag else acc) none

/-- The client's `value` handler (src/client.ts `connect`): emit a unilateral
value as an event of its tag's name; otherwise, if a command is in flight,
clear the slot and complete it — with an Error carrying the response when it
has an `error` field, else with the response; finally try to dispatch the
next queued command. -/
def handleValue (obj : JVal) (s : ClientState) : ClientState × List ClientEffect :=
  let step :=
    match unilateralOf obj with
    | some tag => (s, [ClientEffect.emitNamed tag obj])
    | none =>
      match s.currentCommand with
      | some cmd =>
        let s1 := { s with currentCommand := none }
        match objGet obj (strBytes "error") with
        | some errVal => (s1, [ClientEffect.callbackRespErr cmd.cbId errVal obj])
        | none => (s1, [ClientEffect.callbackOk cmd.cbId obj])
      | none => (s, [])
  let next := sendNextCommand step.1
  (next.1, step.2 ++ next.2)

/-- Whether an effect is a command-completion callback. -/
def isCallbackEff : ClientEffect → Bool
  | .callbackErr _ _ => true
  | .callbackOk _ _ => true
  | .callbackRespErr _ _ _ => true
  | _ => false

/-- Whether an effect is the `end` event. -/
def isEndEff : ClientEffect → Bool
  | .emitEnd => true
  | _ => false

theorem countP_map_const_true {α β : Type} (f : α → β) (p : β → Bool) (l : List α)
    (h : ∀ a, p (f a) = true) : (l.map f).countP p = l.length := by
  induction l with
  | nil => rfl
  | cons x xs ih => simp [List.countP_cons, h, ih]

/-- C3: on connection teardown every queued and in-flight command receives
exactly one completion callback with the connection-closed failure, the
queue is emptied and the in-flight slot nulled (the state change precedes
the callbacks: `cancelCommands` steals the queue first), and exactly one
`end` event follows; the `end()` path empties everything so the subsequent
read-loop teardown emits only the single `end` event. -/
theorem teardown_cancels_all (s : ClientState) :
    connTeardown s =
      ({ s with socket := false, bunser := false, commands := [], currentCommand := none },
       (s.currentCommand.toList ++ s.commands).map
         (fun c => ClientEffect.callbackErr c.cbId ("The watchman connection was closed"))
       ++ [ClientEffect.emitEnd]) ∧
    (connTeardown s).2.countP isCallbackEff
      = s.currentCommand.toList.length + s.commands.length ∧
    (connTeardown s).2.countP isEndEff = 1 ∧
    (connTeardown (clientEnd s).1).2 = [ClientEffect.emitEnd] := by
  refine ⟨rfl, ?_, ?_, rfl⟩
  · show (((s.currentCommand.toList ++ s.commands).map
      (fun c => ClientEffect.callbackErr c.cbId ("The watchman connection was closed")))
      ++ [ClientEffect.emitEnd]).countP isCallbackEff = _
    rw [List.countP_append]
    rw [countP_map_const_true _ _ _ (fun a => rfl)]
    simp [isCallbackEff]
  · show (((s.currentCommand.toList ++ s.commands).map
      (fun c => ClientEffect.callbackErr c.cbId ("The watchman connection was closed")))
      ++ [ClientEffect.emitEnd]).countP isEndEff = _
    rw [List.countP_append]
    have hz : ((s.currentCommand.toList ++ s.commands).map
        (fun c => ClientEffect.callbackErr c.cbId ("The watchman connection was closed"))).countP
          isEndEff = 0 := by
      rw [List.countP_eq_zero]
      intro e he
      simp only [List.mem_map] at he
      obtain ⟨a, _, ha⟩ := he
      rw [← ha]
      simp [isEndEff]
    rw [hz]
    rfl

/-- C4: a decoded inbound value containing a unilateral tag (`subscription`
or `log`) is emitted as an event of that tag's name and neither clears the
in-flight slot nor invokes its completion; the in-flight command is
completed only by a later non-unilateral value, whose handling fires that
completion first. -/
theorem unilateral_demux (fs : List (List Nat × JVal)) (s : ClientState) (c : Command)
    (tag : List Nat) (hu : unilateralOf (.jobj fs) = some tag)
    (hc : s.currentCommand = some c) :
    handleValue (.jobj fs) s = (s, [ClientEffect.emitNamed tag (.jobj fs)]) ∧
    (tag = strBytes "subscription" ∨ tag = strBytes "log") ∧
    (∀ fs2, unilateralOf (.jobj fs2) = none →
      (handleValue (.jobj fs2) s).2.head? =
        some (match objGet (.jobj fs2) (strBytes "error") with
          | some errVal => ClientEffect.callbackRespErr c.cbId errVal (.jobj fs2)
          | none => ClientEffect.callbackOk c.cbId (.jobj fs2))) := by
  refine ⟨?_, ?_, ?_⟩
  · simp [handleValue, sendNextCommand, hu, hc]
  · unfold unilateralOf unilateralTags at hu
    simp only [List.foldl] at hu
    split_ifs at hu <;> simp_all
  · intro fs2 h2
    unfold handleValue
    rw [h2, hc]
    cases hg : objGet (.jobj fs2) (strBytes "error") <;> simp [hg]

/-- Closed witness for the unilateral demux theorem: a subscription payload
arriving while a command is in flight. -/
theorem unilateral_demux_witness :
    handleValue (.jobj [(strBytes "subscription", .jint 1)])
        (ClientState.mk [] (some (Command.mk .jnull 0)) true true)
      = (ClientState.mk [] (some (Command.mk .jnull 0)) true true,
         [ClientEffect.emitNamed (strBytes "subscription")
            (.jobj [(strBytes "subscription", .jint 1)])]) :=
  (unilateral_demux [(strBytes "subscription", .jint 1)]
    (ClientState.mk [] (some (Command.mk .jnull 0)) true true)
    (Command.mk .jnull 0) (strBytes "subscription") rfl rfl).1

/-- C10: a non-unilateral decoded value arriving with no command in flight
is dropped silently — no completion callback is invoked and no event is
emitted for it — and the client still attempts to dispatch the next queued
command afterwards. -/
theorem response_dropped_when_idle (fs : List (List Nat × JVal)) (s : ClientState)
    (hu : unilateralOf (.jobj fs) = none) (hc : s.currentCommand = none) :
    handleValue (.jobj fs) s = sendNextCommand s ∧
    (∀ e ∈ (handleValue (.jobj fs) s).2, ∃ bytes, e = ClientEffect.sockWrite bytes) ∧
    (∀ c rest, s.commands = c :: rest →
      handleValue (.jobj fs) s =
        ({ s with currentCommand := some c, commands := rest },
         [ClientEffect.sockWrite (dumpToBuffer c.cmd)])) := by
  have h1 : handleValue (.jobj fs) s = sendNextCommand s := by
    unfold handleValue
    rw [hu, hc]
    simp
  refine ⟨h1, ?_, ?_⟩
  · rw [h1]
    unfold sendNextCommand
    rw [hc]
    cases hcm : s.commands with
    | nil =>
      intro e he
      cases he
    | cons c rest =>
      intro e he
      simp only [List.mem_singleton] at he
      exact ⟨_, he⟩
  · intro c rest hcm
    rw [h1]
    simp [sendNextCommand, hc, hcm]

/-- Closed witness for the silent-drop theorem: an empty-object response with
an idle in-flight slot and one queued command, which gets dispatched. -/
theorem response_dropped_when_idle_witness :
    handleValue (.jobj []) (ClientState.mk [Command.mk (.jint 1) 7] none true true)
      = (ClientState.mk [] (some (Command.mk (.jint 1) 7)) true true,
         [ClientEffect.sockWrite (dumpToBuffer (.jint 1))]) :=
  (response_dropped_when_idle [] (ClientState.mk [Command.mk (.jint 1) 7] none true true)
    rfl rfl).2.2 (Command.mk (.jint 1) 7) [] rfl

/-- A spawn failure as delivered to `spawnError`: the system error code (in
either the `code` or `errno` field) and the original message. -/
structure SpawnErr where
  code : Option String
  errno : Option String
  message : String

/-- The message translation of `spawnError` (src/client.ts `connect`):
EACCES (in `code` or `errno`) maps to the permission message, then ENOENT to
the not-found message; anything else keeps its message. -/
def translateSpawnError (e : SpawnErr) : String :=
  if e.code = some ("EACCES") ∨ e.errno = some ("EACCES") then
    "The Watchman CLI is installed but cannot be spawned because of a permission problem"
  else if e.code = some ("ENOENT") ∨ e.errno = some ("ENOENT") then
    "Watchman was not found in PATH.  See https://facebook.github.io/watchman/docs/install.html for installation instructions"
  else e.message

/-- `spawnError` (src/client.ts): after a first reported failure further
calls do nothing; otherwise mark the failure, log the translated message to
the console and emit it on the error channel. -/
def spawnError (spawnFailed : Bool) (e : SpawnErr) : Bool × List ClientEffect :=
  if spawnFailed then (spawnFailed, [])
  else
    (true,
     [ClientEffect.consoleError (translateSpawnError e),
      ClientEffect.emitError (translateSpawnError e)])

/-- The argv tail passed to the watchman binary during sockname discovery
(src/client.ts `connect`): `["--no-pretty", "get-sockname"]`. -/
def sockArgs : List String := ["--no-pretty", "get-sockname"]

/-- The error constructed at the only call site of `spawnError`
(src/client.ts `connect`, after `proc.status()` reports failure): a plain
`Error` whose message reports the binary, arguments, exit code, signal and
stderr; it carries no `code` and no `errno` field. -/
def exitCodeError (binPath : String) (code sig stderr : String) : SpawnErr :=
  SpawnErr.mk none none
    (binPath ++ " " ++ String.intercalate (" ") sockArgs
      ++ " returned with exit code=" ++ code ++ ", signal=" ++ sig
      ++ ", stderr= " ++ stderr)

/-- Outcome of the `Deno.run` sockname discovery (src/client.ts `connect`):
either the spawn itself throws — in Deno a missing binary raises
`Deno.errors.NotFound` and a non-executable one `PermissionDenied`, plain
errors carrying a message but no `code` or `errno` field — or the process
runs and exits with a failure status, or it succeeds and prints the
sockname JSON. -/
inductive SpawnOutcome where
  | threw (msg : String)
  | exited (code sig stderr : String)
  | succeeded (stdout : String)

/-- The sockname-discovery step of `connect` (src/client.ts): `Deno.run`
sits outside every try/catch, so an exception from the spawn itself
propagates out of `connect` (the `Except.error` case) without reaching
`spawnError` or the error channel; a failed exit status reaches the sole
`spawnError` call site carrying `exitCodeError`; a success carries stdout
onward with no error effects. -/
def runGetSockname (binPath : String) (o : SpawnOutcome) :
    Except String (Option String × List ClientEffect) :=
  match o with
  | .threw msg => .error msg
  | .exited code sig stderr =>
      .ok (none, (spawnError false (exitCodeError binPath code sig stderr)).2)
  | .succeeded stdout => .ok (some stdout, [])

/-- C9: the ENOENT/EACCES message translation of `spawnError` is dead code
in this port, so the contractual not-found and permission messages are
never emitted. A throwing spawn (how ENOENT/EACCES manifest under Deno,
as `Deno.errors.NotFound`/`PermissionDenied` without `code`/`errno`
fields) escapes `connect` without reaching `spawnError` or the error
channel; the sole `spawnError` call site passes `exitCodeError`, whose
`code` and `errno` are absent; and on every error without `code` and
`errno` the translation is the identity, so exactly the raw untranslated
message is logged and emitted. -/
theorem spawn_error_translation_dead (binPath code sig stderr msg : String)
    (e : SpawnErr) (hc : e.code = none) (he : e.errno = none) :
    runGetSockname binPath (SpawnOutcome.threw msg) = Except.error msg ∧
    (exitCodeError binPath code sig stderr).code = none ∧
    (exitCodeError binPath code sig stderr).errno = none ∧
    runGetSockname binPath (SpawnOutcome.exited code sig stderr)
      = Except.ok (none,
          [ClientEffect.consoleError (exitCodeError binPath code sig stderr).message,
           ClientEffect.emitError (exitCodeError binPath code sig stderr).message]) ∧
    translateSpawnError e = e.message ∧
    spawnError false e
      = (true,
         [ClientEffect.consoleError e.message, ClientEffect.emitError e.message]) := by
  have hid : ∀ e2 : SpawnErr, e2.code = none → e2.errno = none →
      translateSpawnError e2 = e2.message := by
    intro e2 h1 h2
    unfold translateSpawnError
    rw [h1, h2]
    simp
  refine ⟨rfl, rfl, rfl, ?_, hid e hc he, ?_⟩
  · unfold runGetSockname spawnError
    dsimp only
    simp only [Bool.false_eq_true, if_false]
    rw [hid (exitCodeError binPath code sig stderr) rfl rfl]
  · unfold spawnError
    rw [if_neg (by simp), hid e hc he]

/-- Closed witness: the sole call site's error, untranslated. -/
theorem spawn_error_translation_dead_witness :
    translateSpawnError (SpawnErr.mk none none
        ("watchman --no-pretty get-sockname returned with exit code=1, signal=null, stderr= "))
      = "watchman --no-pretty get-sockname returned with exit code=1, signal=null, stderr= " :=
  (spawn_error_translation_dead ("watchman") ("1") ("null") ("") ("boom")
    (SpawnErr.mk none none
      ("watchman --no-pretty get-sockname returned with exit code=1, signal=null, stderr= "))
    rfl rfl).2.2.2.2.1

/-- The static capability → minimum version table (src/client.ts
`cap_versions`). -/
def cap_versions : List (String × String) :=
  [("cmd-watch-del-all", "3.1.1"), ("cmd-watch-project", "3.1"), ("relative_root", "3.3"),
   ("term-dirname", "3.1"), ("term-idirname", "3.1"), ("wildmatch", "3.7")]

/-- JS `String.prototype.split(".")` over the code-point list: cut at every
dot; the empty string yields one empty part. -/
def splitOnDot : List Char → List String
  | [] => [""]
  | c :: cs =>
    if c = '.' then String.mk [] :: splitOnDot cs
    else
      match splitOnDot cs with
      | [] => [String.mk [c]]
      | p :: ps => String.mk (c :: p.data) :: ps

/-- Base-10 value of a digit list. -/
def digitsToNat (cs : List Char) : Nat :=
  cs.foldl (fun a c => 10 * a + (c.toNat - 48)) 0

/-- The ECMAScript `parseInt` builtin as `vers_compare` calls it (no radix):
skip leading whitespace, take an optional sign, then the longest prefix of
decimal digits; `none` models NaN.  (The hexadecimal auto-detection of a
radix-less `parseInt` is not modelled: the version components compared here
are dotted decimal numerals.) -/
def parseIntJS (str : String) : Option Int :=
  let cs := str.data.dropWhile (fun c => c == ' ' || c == '\t' || c == '\n' || c == '\r')
  match cs with
  | '-' :: rest =>
    let ds := rest.takeWhile Char.isDigit
    if ds.isEmpty then none else some (-(digitsToNat ds : Int))
  | '+' :: rest =>
    let ds := rest.takeWhile Char.isDigit
    if ds.isEmpty then none else some ((digitsToNat ds : Int))
  | _ =>
    let ds := cs.takeWhile Char.isDigit
    if ds.isEmpty then none else some ((digitsToNat ds : Int))

/-- The component access `parts[i] || "0"` of `vers_compare`: a missing (or
empty, hence falsy) component is the string "0". -/
def compStr (parts : List String) (i : Nat) : String :=
  let x := parts.getD i (String.mk [])
  if x = String.mk [] then "0" else x

/-- One loop iteration's difference
`parseInt(s[i] || "0") - parseInt(t[i] || "0")`; `none` models NaN. -/
def compDiff (sp tp : List String) (i : Nat) : Option Int :=
  match parseIntJS (compStr sp i), parseIntJS (compStr tp i) with
  | some a, some b => some (a - b)
  | _, _ => none

/-- `vers_compare` (src/client.ts): split both versions on dots and compare
the first three components; return as soon as a difference is nonzero (a NaN
difference, modelled `none`, also returns immediately since NaN != 0), else
report equality. -/
def vers_compare (a b : String) : Option Int :=
  let sp := splitOnDot a.data
  let tp := splitOnDot b.data
  match compDiff sp tp 0 with
  | none => none
  | some d0 =>
    if d0 ≠ 0 then some d0
    else
      match compDiff sp tp 1 with
      | none => none
      | some d1 =>
        if d1 ≠ 0 then some d1
        else
          match compDiff sp tp 2 with
          | none => none
          | some d2 => if d2 ≠ 0 then some d2 else some 0

/-- `have_cap` (src/client.ts): names absent from the table are unsupported;
otherwise the capability is supported iff the server version compares at
least the table minimum (a NaN comparison is not `>= 0`, hence false). -/
def have_cap (vers : String) (name : String) : Bool :=
  match cap_versions.find? (fun p => p.1 == name) with
  | some p =>
    match vers_compare vers p.2 with
    | some d => decide (0 ≤ d)
    | none => false
  | none => false

/-- The rejection message for a missing required capability
(src/client.ts `_synthesizeCapabilityCheck`). -/
def capErrMsg (n : String) : String :=
  "client required capability `" ++ n ++ "` is not supported by this server"

/-- Property assignment into the synthesized capabilities object. -/
def capSet : List (String × Bool) → String → Bool → List (String × Bool)
  | [], name, b => [(name, b)]
  | (n, v) :: rest, name, b =>
    if n = name then (n, b) :: rest else (n, v) :: capSet rest name b

/-- `Client._synthesizeCapabilityCheck`: fill `capabilities` for the optional
then the required names; every unsupported required capability overwrites
`error` with a message naming it (the last unsupported one remains). -/
def synthesizeCapabilityCheck (version : String) (error0 : Option String)
    (optional required : List String) : List (String × Bool) × Option String :=
  let caps0 := optional.foldl (fun m n => capSet m n (have_cap version n)) []
  let caps1 := required.foldl (fun m n => capSet m n (have_cap version n)) caps0
  let err := required.foldl
    (fun e n => if have_cap version n then e else some (capErrMsg n)) error0
  (caps1, err)

/-- The shape of a `version` command response as `capabilityCheck` sees it:
the version string, an optional capabilities map, an optional error. -/
structure CapResp where
  version : String
  capabilities : Option (List (String × Bool))
  error : Option String

/-- The response-processing step of `Client.capabilityCheck` once the
`version` command succeeded: pass through a response that already carries
`capabilities`; otherwise synthesize one from the version, rejecting with
the synthesized error message when one was set. -/
def capabilityCheckProcess (resp : CapResp) (optional required : List String) :
    Except String CapResp :=
  if resp.capabilities.isSome then .ok resp
  else
    let r := synthesizeCapabilityCheck resp.version resp.error optional required
    match r.2 with
    | some msg => .error msg
    | none => .ok { resp with capabilities := some r.1, error := r.2 }

theorem digit_not_ws (c : Char) (h : c.isDigit = true) :
    (c == ' ' || c == '\t' || c == '\n' || c == '\r') = false := by
  by_cases h1 : c = ' '
  · subst h1
    exact absurd h (by decide)
  by_cases h2 : c = '\t'
  · subst h2
    exact absurd h (by decide)
  by_cases h3 : c = '\n'
  · subst h3
    exact absurd h (by decide)
  by_cases h4 : c = '\r'
  · subst h4
    exact absurd h (by decide)
  simp [beq_eq_false_iff_ne, h1, h2, h3, h4]

theorem takeWhile_all_digits (cs : List Char) (h : ∀ c ∈ cs, c.isDigit = true) :
    cs.takeWhile Char.isDigit = cs := by
  induction cs with
  | nil => rfl
  | cons c rest ih =>
    rw [List.takeWhile_cons]
    rw [h c (by simp)]
    simp only [if_true]
    rw [ih (fun x hx => h x (by simp [hx]))]

theorem parseIntJS_digits (s : String) (hne : s.data ≠ [])
    (hd : ∀ c ∈ s.data, c.isDigit = true) :
    parseIntJS s = some ((digitsToNat s.data : Nat) : Int) := by
  unfold parseIntJS
  cases hcs : s.data with
  | nil => exact absurd hcs hne
  | cons c rest =>
    have hc : c.isDigit = true := hd c (by rw [hcs]; simp)
    have hrest : ∀ x ∈ rest, x.isDigit = true := fun x hx => hd x (by rw [hcs]; simp [hx])
    have hdw : (c :: rest).dropWhile (fun x => x == ' ' || x == '\t' || x == '\n' || x == '\r')
        = c :: rest := by
      rw [List.dropWhile_cons]
      rw [digit_not_ws c hc]
      simp
    have hcm : c ≠ '-' := by
      intro hcon
      subst hcon
      exact absurd hc (by decide)
    have hcp : c ≠ '+' := by
      intro hcon
      subst hcon
      exact absurd hc (by decide)
    have htw : (c :: rest).takeWhile Char.isDigit = c :: rest :=
      takeWhile_all_digits _ (fun x hx => hd x (by rw [hcs]; exact hx))
    simp only [hdw]
    split
    · rename_i heq
      injection heq with hh _
      exact absurd hh hcm
    · rename_i heq
      injection heq with hh _
      exact absurd hh hcp
    · rw [htw]
      rw [if_neg (by simp)]

theorem compStr_digits (parts : List String) (i : Nat)
    (hp : ∀ x ∈ parts, x.data ≠ [] ∧ ∀ c ∈ x.data, c.isDigit = true) :
    (compStr parts i).data ≠ [] ∧ ∀ c ∈ (compStr parts i).data, c.isDigit = true := by
  unfold compStr
  by_cases hi : i < parts.length
  · have hget : parts.getD i (String.mk []) = parts[i] := List.getD_eq_getElem parts _ hi
    have hmem : parts[i] ∈ parts := List.getElem_mem hi
    obtain ⟨hne2, hdig⟩ := hp _ hmem
    rw [hget]
    rw [if_neg (by
      intro hcon
      rw [hcon] at hne2
      exact hne2 rfl)]
    exact ⟨hne2, hdig⟩
  · rw [List.getD_eq_default _ _ (by omega)]
    rw [if_pos rfl]
    refine ⟨by decide, ?_⟩
    intro c hc
    simp only [show ("0" : String).data = ['0'] from rfl, List.mem_singleton] at hc
    subst hc
    decide

theorem compDiff_digits (sp tp : List String) (i : Nat)
    (hs : ∀ x ∈ sp, x.data ≠ [] ∧ ∀ c ∈ x.data, c.isDigit = true)
    (ht : ∀ x ∈ tp, x.data ≠ [] ∧ ∀ c ∈ x.data, c.isDigit = true) :
    compDiff sp tp i
      = some ((digitsToNat (compStr sp i).data : Int)
          - (digitsToNat (compStr tp i).data : Int)) := by
  obtain ⟨h1, h2⟩ := compStr_digits sp i hs
  obtain ⟨h3, h4⟩ := compStr_digits tp i ht
  unfold compDiff
  rw [parseIntJS_digits _ h1 h2, parseIntJS_digits _ h3 h4]

theorem capFold_spec (v : String) :
    ∀ (required : List String) (e0 : Option String),
    (required.all (have_cap v) = true →
      required.foldl (fun e n => if have_cap v n then e else some (capErrMsg n)) e0 = e0) ∧
    (required.all (have_cap v) = false →
      ∃ n ∈ required, have_cap v n = false ∧
        required.foldl (fun e n => if have_cap v n then e else some (capErrMsg n)) e0
          = some (capErrMsg n)) := by
  intro required
  induction required with
  | nil =>
    intro e0
    refine ⟨fun _ => rfl, fun h => ?_⟩
    simp at h
  | cons n ns ih =>
    intro e0
    constructor
    · intro hall
      simp only [List.all_cons, Bool.and_eq_true] at hall
      simp only [List.foldl_cons, hall.1, if_true]
      exact (ih e0).1 hall.2
    · intro hall
      by_cases hn : have_cap v n = true
      · simp only [List.all_cons, hn, Bool.true_and] at hall
        obtain ⟨m, hm, hmf, hres⟩ := (ih e0).2 hall
        refine ⟨m, by simp [hm], hmf, ?_⟩
        simp only [List.foldl_cons, hn, if_true]
        exact hres
      · have hnf : have_cap v n = false := by simp_all
        by_cases hns : ns.all (have_cap v) = true
        · refine ⟨n, by simp, hnf, ?_⟩
          simp only [List.foldl_cons, hnf, Bool.false_eq_true, if_false]
          exact (ih (some (capErrMsg n))).1 hns
        · have hns2 : ns.all (have_cap v) = false := by simp_all
          obtain ⟨m, hm, hmf, hres⟩ := (ih (some (capErrMsg n))).2 hns2
          refine ⟨m, by simp [hm], hmf, ?_⟩
          simp only [List.foldl_cons, hnf, Bool.false_eq_true, if_false]
          exact hres

/-- C7: when `capabilityCheck` receives a response lacking a `capabilities`
field, it synthesizes one from the response's `version` using the static
capability-to-minimum-version table (names absent from the table are
unsupported; the first three dotted components are compared as base-10
integers with missing components treated as 0), and rejects with an error
whose message names a required capability that is unsupported, whenever
there is one. -/
theorem capability_check_synthesis (resp : CapResp) (optional required : List String)
    (hnc : resp.capabilities = none) (hne : resp.error = none) :
    (required.all (have_cap resp.version) = true →
      capabilityCheckProcess resp optional required =
        .ok { resp with
          capabilities :=
            some (synthesizeCapabilityCheck resp.version resp.error optional required).1,
          error := none }) ∧
    (required.all (have_cap resp.version) = false →
      ∃ n ∈ required, have_cap resp.version n = false ∧
        capabilityCheckProcess resp optional required = .error (capErrMsg n)) ∧
    (∀ n, cap_versions.find? (fun p => p.1 == n) = none →
      have_cap resp.version n = false) ∧
    (∀ sp tp : List String,
      (∀ x ∈ sp, x.data ≠ [] ∧ ∀ c ∈ x.data, c.isDigit = true) →
      (∀ x ∈ tp, x.data ≠ [] ∧ ∀ c ∈ x.data, c.isDigit = true) →
      ∀ i, compDiff sp tp i =
        some ((digitsToNat (compStr sp i).data : Int)
          - (digitsToNat (compStr tp i).data : Int))) := by
  have hsome : resp.capabilities.isSome = false := by
    rw [hnc]
    rfl
  refine ⟨?_, ?_, ?_, ?_⟩
  · intro hall
    have herr : (synthesizeCapabilityCheck resp.version resp.error optional required).2
        = none := by
      unfold synthesizeCapabilityCheck
      rw [hne]
      exact (capFold_spec resp.version required none).1 hall
    unfold capabilityCheckProcess
    rw [if_neg (by rw [hsome]; exact Bool.false_ne_true)]
    simp only [herr]
  · intro hall
    obtain ⟨n, hn, hnf, hres⟩ := (capFold_spec resp.version required none).2 hall
    have herr : (synthesizeCapabilityCheck resp.version resp.error optional required).2
        = some (capErrMsg n) := by
      unfold synthesizeCapabilityCheck
      rw [hne]
      exact hres
    refine ⟨n, hn, hnf, ?_⟩
    unfold capabilityCheckProcess
    rw [if_neg (by rw [hsome]; exact Bool.false_ne_true)]
    simp only [herr]
  · intro n hfind
    unfold have_cap
    rw [hfind]
  · intro sp tp hs ht i
    exact compDiff_digits sp tp i hs ht

/-- Closed witness: a version-3.5 server lacking `capabilities` fails a
required `wildmatch` (minimum 3.7) with the message naming it. -/
theorem capability_check_synthesis_witness :
    ∃ n ∈ [("wildmatch" : String)], have_cap ("3.5") n = false ∧
      capabilityCheckProcess (CapResp.mk ("3.5") none none) [] [("wildmatch" : String)]
        = .error (capErrMsg n) :=
  (capability_check_synthesis (CapResp.mk ("3.5") none none) [] [("wildmatch" : String)]
    rfl rfl).2.1 (by decide)
